import Mathlib

/-!
Verification of the picoclaw agent engine against its natural-language
specification.  The Go sources under pkg/routing (tier router, supervision,
cost tracking), pkg/providers/openai_compat (text-embedded tool-call
recovery) and pkg/workflow (engine, parser) are shallowly embedded below:
pure Go functions become Lean functions, stateful methods become explicit
state-passing functions, Go strings become lists of characters, float64
becomes ℚ, and `time.Now()` becomes an explicit timestamp parameter.
-/

set_option maxHeartbeats 1000000
set_option linter.dupNamespace false
set_option linter.unusedVariables false

namespace Picoclaw

/-! ### String primitives

Models of the Go `strings` helpers used by the embedded code, over
`List Char`.  Go operates on UTF-8 bytes; all characters compared against
below are ASCII, where byte positions and character positions agree.
-/

/-- Check that `p` is a prefix of `s` (Boolean, executable). -/
def isPrefChars : List Char → List Char → Bool
  | [], _ => true
  | _ :: _, [] => false
  | p :: ps, c :: cs => p == c && isPrefChars ps cs

/-- Model of Go `strings.Contains s pat` (argument order: pattern first). -/
def hasSub (pat : List Char) : List Char → Bool
  | [] => isPrefChars pat []
  | c :: cs => isPrefChars pat (c :: cs) || hasSub pat cs

/-- Model of Go `strings.TrimPrefix`. -/
def trimPrefChars (s pre : List Char) : List Char :=
  if isPrefChars pre s then s.drop pre.length else s

/-- Characters treated as white space by Go `unicode.IsSpace` (the Latin-1
range: space, tab, newline, vertical tab, form feed, carriage return,
next line, and no-break space). -/
def isGoSpace (c : Char) : Bool :=
  c == ' ' || c == '\t' || c == '\n' || c == Char.ofNat 11 || c == Char.ofNat 12 ||
  c == '\r' || c == Char.ofNat 0x85 || c == Char.ofNat 0xA0

/-- Model of Go `strings.TrimSpace`. -/
def trimSpaceChars (s : List Char) : List Char :=
  ((s.dropWhile isGoSpace).reverse.dropWhile isGoSpace).reverse

/-- ASCII lower-casing of one character, as Go `strings.ToLower` acts on
the ASCII range (all keywords compared against in the sources are ASCII). -/
def lowerChar (c : Char) : Char :=
  if 'A' ≤ c ∧ c ≤ 'Z' then Char.ofNat (c.toNat + 32) else c

/-- ASCII lower-casing of a string. -/
def lowerChars (s : List Char) : List Char := s.map lowerChar

/-- Split at the first occurrence of `sep`, as Go `strings.SplitN s sep 2`
behaves when the separator occurs: the two parts with the separator
removed.  Returns `none` when `sep` does not occur. -/
def splitFirst (sep : Char) : List Char → Option (List Char × List Char)
  | [] => none
  | c :: cs =>
    if c == sep then some ([], cs)
    else (splitFirst sep cs).map (fun p => (c :: p.1, p.2))

/-- Model of Go `strings.ReplaceAll s pat ""`: remove every (leftmost,
non-overlapping) occurrence of `pat`.  Go inserts the replacement between
characters when `pat` is empty; the embedded code only ever strips the
non-empty marker `"(required)"`, so the empty pattern is mapped to the
identity. -/
def stripAllF (pat : List Char) : Nat → List Char → List Char
  | 0, s => s
  | _ + 1, [] => []
  | fuel + 1, c :: cs =>
    if pat ≠ [] ∧ isPrefChars pat (c :: cs) then stripAllF pat fuel (cs.drop (pat.length - 1))
    else c :: stripAllF pat fuel cs

/-- Entry point of `stripAll`: the fuel equals the string length, which a
step never consumes slower than. -/
def stripAll (pat : List Char) (s : List Char) : List Char :=
  stripAllF pat s.length s

/-- Index of the first occurrence of a character (Go `strings.Index` with a
one-character pattern). -/
def firstIdx (t : Char) : List Char → Option Nat
  | [] => none
  | c :: cs => if c == t then some 0 else (firstIdx t cs).map (· + 1)

/-- Index of the last occurrence of a character (Go `strings.LastIndex`
with a one-character pattern). -/
def lastIdx (t : Char) (s : List Char) : Option Nat :=
  (firstIdx t s.reverse).map (fun i => s.length - 1 - i)

/-- Left and right braces, written via their code points. -/
def lbrace : Char := Char.ofNat 123

/-- Right brace. -/
def rbrace : Char := Char.ofNat 125

end Picoclaw

namespace Picoclaw.Workflow

/-! ### Workflow data model (pkg/workflow/types.go) -/

/-- Completion type; in Go this is a string-valued type, so it is modelled
as `String` with the three named constants (the zero value `""` is also
reachable when a workflow file has no completion section). -/
def CompletionAllRequired : String := "all_required"

/-- The any-branch completion type constant. -/
def CompletionAnyBranch : String := "any_branch"

/-- The custom completion type constant. -/
def CompletionCustom : String := "custom"

/-- Step of a phase (types.go `Step`). -/
structure Step where
  id : String
  name : String
  description : String
  required : Bool
  completed : Bool
deriving Repr, DecidableEq, Inhabited

/-- Completion criteria of a phase (types.go `CompletionCriteria`). -/
structure CompletionCriteria where
  type : String
  description : String
deriving Repr, DecidableEq, Inhabited

/-- Branch definition (types.go `Branch`). -/
structure Branch where
  condition : String
  description : String
  targetPhase : String
  steps : List Step
deriving Repr, DecidableEq

/-- Phase of a workflow (types.go `Phase`). -/
structure Phase where
  name : String
  steps : List Step
  completion : CompletionCriteria
  branches : List Branch
deriving Repr, DecidableEq, Inhabited

/-- Workflow definition (types.go `Workflow`). -/
structure Workflow where
  name : String
  description : String
  phases : List Phase
deriving Repr, DecidableEq

/-- Finding (types.go `Finding`); timestamps are integers, metadata is
omitted as no embedded operation reads it. -/
structure Finding where
  id : String
  title : String
  description : String
  severity : String
  phase : String
  createdAt : Int
  evidence : String
deriving Repr, DecidableEq

/-- Runtime branch (types.go `ActiveBranch`). -/
structure ActiveBranch where
  condition : String
  description : String
  createdAt : Int
  completedAt : Option Int
  findings : List Finding
deriving Repr, DecidableEq

/-- Phase execution record (types.go `PhaseExecution`). -/
structure PhaseExecution where
  phaseName : String
  startTime : Int
  endTime : Option Int
  stepsComplete : List String
  notes : List String
deriving Repr, DecidableEq

/-- Mission state (types.go `MissionState`); the free-form metadata map is
omitted as no embedded operation reads it. -/
structure MissionState where
  workflowName : String
  target : String
  startTime : Int
  currentPhase : Nat
  phaseHistory : List PhaseExecution
  activeBranches : List ActiveBranch
  findings : List Finding
deriving Repr, DecidableEq

/-- Result of a mutating engine operation: the new state, the returned
error (if any), and whether `SaveState` was invoked on this path (the
write itself is a file-system effect outside the state). -/
structure EngineResult where
  state : MissionState
  err : Option String
  saved : Bool
deriving Repr, DecidableEq

/-! ### Engine operations (pkg/workflow/engine.go)

`time.Now()` is passed in as the `now` parameter.  The Go methods mutate
`e.state` through pointers; here each operation maps the state to a new
state.
-/

/-- Fresh mission state (engine.go `NewEngine`). -/
def newMissionState (w : Workflow) (target : String) (now : Int) : MissionState :=
  { workflowName := w.name
    target := target
    startTime := now
    currentPhase := 0
    phaseHistory := []
    activeBranches := []
    findings := [] }

/-- Model of engine.go `startPhaseExecution`: appends a fresh
`PhaseExecution` for the current phase, or does nothing when
`currentPhase` is out of range. -/
def startPhaseExecution (w : Workflow) (now : Int) (s : MissionState) : MissionState :=
  if s.currentPhase ≥ w.phases.length then s
  else
    { s with phaseHistory :=
        s.phaseHistory ++
          [{ phaseName := (w.phases.getD s.currentPhase default).name
             startTime := now
             endTime := none
             stepsComplete := []
             notes := [] }] }

/-- State effect of engine.go `getCurrentPhaseExecution`: when the history
is empty it first calls `startPhaseExecution` (a mutation). -/
def ensureExec (w : Workflow) (now : Int) (s : MissionState) : MissionState :=
  if s.phaseHistory.length = 0 then startPhaseExecution w now s else s

/-- Value returned by engine.go `getCurrentPhaseExecution` (a pointer to
the last history entry, or nil): the last entry of the ensured state. -/
def lastExec (s : MissionState) : Option PhaseExecution :=
  s.phaseHistory.getLast?

/-- Replace the last history entry (writing through the Go pointer). -/
def setLastExec (s : MissionState) (e : PhaseExecution) : MissionState :=
  { s with phaseHistory := s.phaseHistory.dropLast ++ [e] }

/-- Model of engine.go `isStepComplete`. -/
def isStepComplete (stepID : String) (e : PhaseExecution) : Bool :=
  e.stepsComplete.contains stepID

/-- Model of engine.go `MarkStepComplete`.  Note the early `return nil`
when the step is already complete does not call `SaveState`. -/
def markStepComplete (w : Workflow) (now : Int) (s : MissionState) (stepID : String) :
    EngineResult :=
  let s1 := ensureExec w now s
  match lastExec s1 with
  | none => { state := s1, err := some "no active phase execution", saved := false }
  | some e =>
    if e.stepsComplete.contains stepID then
      { state := s1, err := none, saved := false }
    else
      { state := setLastExec s1 { e with stepsComplete := e.stepsComplete ++ [stepID] }
        err := none
        saved := true }

/-- Model of engine.go `AdvancePhase`: closes the current phase execution
(setting its end time) before checking whether a next phase exists; the
already-at-final-phase error path returns without saving. -/
def advancePhase (w : Workflow) (now : Int) (s : MissionState) : EngineResult :=
  let s1 := ensureExec w now s
  let s2 :=
    match lastExec s1 with
    | none => s1
    | some e => setLastExec s1 { e with endTime := some now }
  if s2.currentPhase + 1 ≥ w.phases.length then
    { state := s2, err := some "already at final phase", saved := false }
  else
    let s3 := { s2 with currentPhase := s2.currentPhase + 1 }
    let s4 := startPhaseExecution w now s3
    { state := s4, err := none, saved := true }

/-- Model of engine.go `IsPhaseComplete`; the call to
`getCurrentPhaseExecution` can mutate the state (creating the first
`PhaseExecution`), so the possibly-updated state is returned alongside
the Boolean. -/
def isPhaseComplete (w : Workflow) (now : Int) (s : MissionState) : Bool × MissionState :=
  if s.currentPhase ≥ w.phases.length then (false, s)
  else
    let phase := w.phases.getD s.currentPhase default
    let s1 := ensureExec w now s
    match lastExec s1 with
    | none => (false, s1)
    | some e =>
      if phase.completion.type = CompletionAllRequired then
        (phase.steps.all (fun st => !st.required || isStepComplete st.id e), s1)
      else if phase.completion.type = CompletionAnyBranch then
        (decide (s1.activeBranches.length > 0), s1)
      else
        (false, s1)

/-! ### Workflow file parsing (pkg/workflow/parser.go) -/

/-- Model of parser.go `parseStep`: parse one list item of a Steps
section.  The list marker is trimmed, the required flag is read
case-insensitively, the exact spellings `"(required)"` and `"(Required)"`
are stripped, and the `id: name` split happens on the first colon. -/
def parseStep (line : String) : Option Step :=
  let l0 := trimPrefChars line.data "-".data
  let l1 := trimPrefChars l0 "*".data
  let l2 := trimSpaceChars l1
  if l2 = [] then none
  else
    let required := hasSub "(required)".data (lowerChars l2)
    let l3 := stripAll "(required)".data l2
    let l4 := stripAll "(Required)".data l3
    let l5 := trimSpaceChars l4
    match splitFirst ':' l5 with
    | some (p1, p2) =>
      let nm := String.mk (trimSpaceChars p2)
      some { id := String.mk (trimSpaceChars p1), name := nm, description := nm
             required := required, completed := false }
    | none =>
      let nm := String.mk l5
      some { id := String.mk (lowerChars (l5.map (fun c => if c == ' ' then '_' else c)))
             name := nm, description := nm, required := required, completed := false }

end Picoclaw.Workflow

namespace Picoclaw.Routing

/-! ### Task types and agent context (pkg/routing/tier_router.go) -/

/-- Task classification labels (tier_router.go `TaskType` constants). -/
inductive TaskType where
  | planning
  | analysis
  | exploitation
  | report_writing
  | supervision
  | tool_selection
  | code_review
  | js_analysis
  | validation
  | parsing
  | summary
  | formatting
  | triage
deriving Repr, DecidableEq

/-- Agent context used for task classification (tier_router.go
`AgentContext`).  The tool output is carried as a string whose character
length models Go's byte length (they agree on ASCII). -/
structure AgentContext where
  turnCount : Nat
  lastToolOutput : String
  phaseChanged : Bool
  userMessage : String
  toolsAvailable : Nat
  reportRequested : Bool
  sessionStarted : Bool
  requiresSupervision : Bool
  confidenceScore : ℚ
  taskComplexity : Int
  dependentTasks : List TaskType
deriving Repr, DecidableEq

/-- Cost-per-million prices of a tier.  Modelled from the spec:
`TierConfig` lives in pkg/config (not part of the embedded sources); the
spec defines it as cost-per-million {input, output}. -/
structure CostPerMInfo where
  input : ℚ
  output : ℚ
deriving Repr, DecidableEq

/-- Tier configuration.  Modelled from the spec: model name (key into the
provider map), list of task-type labels the tier claims, cost-per-million
prices. -/
structure TierConfig where
  modelName : String
  useFor : List String
  costPerM : CostPerMInfo
deriving Repr, DecidableEq

/-- Routing configuration.  Modelled from the spec: enabled flag,
default-tier name, tier map (as an association list), supervision
enablement, supervisor tier, validation-confidence threshold, and the
minimum task complexity for supervision. -/
structure RoutingConfig where
  enabled : Bool
  defaultTier : String
  tiers : List (String × TierConfig)
  enableSupervision : Bool
  supervisorTier : String
  validationConfidenceThreshold : ℚ
  minTaskComplexityForSupervision : Int
deriving Repr, DecidableEq

/-- Model of Go `strings.Contains s sub` on Lean strings. -/
def goContains (s sub : String) : Bool :=
  hasSub sub.data s.data

/-- Model of tier_router.go `requiresSupervision`.  The router's config
pointer may be nil in Go; that is modelled by an `Option`. -/
def requiresSupervision (cfg : Option RoutingConfig) (ctx : AgentContext) : Bool :=
  match cfg with
  | none => false
  | some c =>
    if !c.enableSupervision then false
    else
      let minComplexity : Int :=
        if c.minTaskComplexityForSupervision > 0 then c.minTaskComplexityForSupervision else 7
      if ctx.taskComplexity ≥ minComplexity then true
      else if ctx.confidenceScore < mkRat 6 10 then true
      else
        let userLower := String.mk (lowerChars ctx.userMessage.data)
        if ["exploit", "vulnerability", "attack", "hack", "breach"].any
            (fun k => goContains userLower k) then true
        else if ctx.turnCount > 5 ∧ ctx.taskComplexity > 6 then true
        else false

/-- One iteration of the complexity-modifier loop of `ClassifyTask`:
add the modifier when the keyword occurs, then clamp to [1, 10]. -/
def applyModifier (userLower : String) (complexity : Int) (kw : String × Int) : Int :=
  if goContains userLower kw.1 then
    let c := complexity + kw.2
    if c < 1 then 1 else if c > 10 then 10 else c
  else complexity

/-- The complexity modifier table of `ClassifyTask`, in source order.
Go iterates this map in unspecified order; the resulting complexity is
only stored in the local (by-value) context copy and never influences the
returned task type, so the order is immaterial to every theorem below. -/
def complexityModifiers : List (String × Int) :=
  [("deep", 2), ("thorough", 2), ("comprehensive", 3),
   ("quick", -1), ("simple", -1), ("basic", -2),
   ("exploit", 3), ("vulnerability", 3), ("security", 2),
   ("analyze", 1), ("review", 1), ("test", 1)]

/-- Model of tier_router.go `ClassifyTask`.  The Go method takes the
context by value, so its writes to confidence, complexity and the
supervision flag are local; only the returned `TaskType` is observable. -/
def classifyTask (cfg : Option RoutingConfig) (ctx : AgentContext) : TaskType :=
  let ctx := if ctx.confidenceScore = 0 then { ctx with confidenceScore := mkRat 1 2 } else ctx
  let ctx := if ctx.taskComplexity = 0 then { ctx with taskComplexity := 5 } else ctx
  if ctx.reportRequested then .report_writing
  else if ctx.turnCount = 0 ∨ ctx.sessionStarted ∨ ctx.phaseChanged then .planning
  else if ctx.lastToolOutput.length > 2000 then
    if ctx.lastToolOutput.length > 10000 then .summary else .parsing
  else
    let userLower := String.mk (lowerChars ctx.userMessage.data)
    let ctx := { ctx with taskComplexity :=
      complexityModifiers.foldl (applyModifier userLower) ctx.taskComplexity }
    let ctx := { ctx with requiresSupervision := requiresSupervision cfg ctx }
    if goContains userLower "analyze" ∨ goContains userLower "examine" then .analysis
    else if goContains userLower "test" ∨ goContains userLower "exploit" ∨
        goContains userLower "vulnerability" then .exploitation
    else if goContains userLower "javascript" ∨ goContains userLower "js file" then .js_analysis
    else if goContains userLower "code" ∨ goContains userLower "review" then .code_review
    else if goContains userLower "which tool" ∨ goContains userLower "what command" then
      .tool_selection
    else .analysis

/-! ### Validation rules and supervision results (tier_router.go) -/

/-- Validation rule (tier_router.go `ValidationRule`). -/
structure ValidationRule where
  taskType : TaskType
  minConfidence : ℚ
  requiresValidation : Bool
  validationTasks : List TaskType
deriving Repr, DecidableEq

/-- The default rules built by `NewTaskValidator`. -/
def defaultValidationRules : List ValidationRule :=
  [{ taskType := .analysis, minConfidence := mkRat 8 10, requiresValidation := true
     validationTasks := [.supervision] },
   { taskType := .exploitation, minConfidence := mkRat 9 10, requiresValidation := true
     validationTasks := [.supervision] },
   { taskType := .planning, minConfidence := mkRat 7 10, requiresValidation := false
     validationTasks := [.validation] },
   { taskType := .code_review, minConfidence := mkRat 75 100, requiresValidation := true
     validationTasks := [.validation] },
   { taskType := .tool_selection, minConfidence := mkRat 6 10, requiresValidation := false
     validationTasks := [.validation] }]

/-- Model of tier_router.go `getValidationRule`: first rule whose task
type matches. -/
def getValidationRule (rules : List ValidationRule) (t : TaskType) : Option ValidationRule :=
  rules.find? (fun r => r.taskType = t)

/-- Model of tier_router.go `isHighStakesTask`. -/
def isHighStakesTask (t : TaskType) : Bool :=
  t = .exploitation ∨ t = .analysis ∨ t = .planning

/-- Parsed supervisor verdict (tier_router.go `ValidationDecision`);
`confidence` is a float64 in Go, modelled as ℚ. -/
structure ValidationDecision where
  approved : Bool
  confidence : ℚ
  corrections : List String
  finalOutput : String
deriving Repr, DecidableEq

/-- Result of a supervised execution (tier_router.go
`SupervisionResult`). -/
structure SupervisionResult where
  originalTask : TaskType
  supervisorTask : TaskType
  validated : Bool
  corrections : List String
  finalOutput : String
  supervisorModel : String
  workerModel : String
  validationScore : ℚ
  supervisorConfidence : ℚ
deriving Repr, DecidableEq

end Picoclaw.Routing

namespace Picoclaw.Json

open Picoclaw

/-! ### JSON values and Go `encoding/json`

A model of the JSON values handled by `encoding/json` as used in the
embedded code.  Numbers are carried as a decimal mantissa and scale
(`num m k` denotes `m / 10 ^ k`), which covers the plain decimal
literals exchanged by the supervisor protocol; exponent notation is not
modelled.  Go's float64 semantics for these magnitudes agree with exact
decimal arithmetic on every comparison performed by the embedded code.
-/

/-- JSON value. -/
inductive Json where
  | null : Json
  | bool (b : Bool) : Json
  | num (mantissa : Int) (scale : Nat) : Json
  | str (s : String) : Json
  | arr (elems : List Json) : Json
  | obj (fields : List (String × Json)) : Json
deriving Inhabited

/-- Escape a raw string body for serialization: quote and backslash get a
preceding backslash (the two escapes needed to make any string body
parse back; `encoding/json` additionally escapes control and HTML
characters, which the round-trip statements exclude by hypothesis). -/
def escapeChars : List Char → List Char
  | [] => []
  | c :: cs =>
    if c == '"' ∨ c == '\\' then '\\' :: c :: escapeChars cs
    else c :: escapeChars cs

/-- Serialize a string literal. -/
def serStr (s : String) : List Char := '"' :: (escapeChars s.data ++ ['"'])

/-- Decimal digit character. -/
def digitChar (n : Nat) : Char := Char.ofNat (48 + n)

/-- Decimal digits of a natural number, most significant first, with a
recursion-depth bound. -/
def natCharsF : Nat → Nat → List Char
  | 0, _ => []
  | fuel + 1, n =>
    if n < 10 then [digitChar n]
    else natCharsF fuel (n / 10) ++ [digitChar (n % 10)]

/-- Decimal digits of a natural number, most significant first. -/
def natChars (n : Nat) : List Char := natCharsF (n + 1) n

/-- Pad a digit list on the left with zeros to length at least `k + 1`. -/
def padDigits (ds : List Char) (k : Nat) : List Char :=
  List.replicate (k + 1 - ds.length) '0' ++ ds

/-- Serialize the number `m / 10 ^ k` in plain decimal notation. -/
def serNum (m : Int) (k : Nat) : List Char :=
  let ds := padDigits (natChars m.natAbs) k
  let core :=
    if k = 0 then ds
    else ds.take (ds.length - k) ++ '.' :: ds.drop (ds.length - k)
  if m < 0 then '-' :: core else core

mutual

/-- Serialize a JSON value in the canonical whitespace-free form. -/
def serJson : Json → List Char
  | .null => "null".data
  | .bool true => "true".data
  | .bool false => "false".data
  | .num m k => serNum m k
  | .str s => serStr s
  | .arr es => '[' :: (serElems es ++ [']'])
  | .obj fs => lbrace :: (serMembers fs ++ [rbrace])

/-- Serialize array elements, comma separated. -/
def serElems : List Json → List Char
  | [] => []
  | [e] => serJson e
  | e :: es => serJson e ++ ',' :: serElems es

/-- Serialize object members, comma separated. -/
def serMembers : List (String × Json) → List Char
  | [] => []
  | [f] => serStr f.1 ++ ':' :: serJson f.2
  | f :: fs => (serStr f.1 ++ ':' :: serJson f.2) ++ ',' :: serMembers fs

end

/-- JSON whitespace (`encoding/json` skips space, tab, newline, carriage
return between tokens). -/
def wsChar (c : Char) : Bool :=
  c == ' ' || c == '\t' || c == '\n' || c == '\r'

/-- Skip leading JSON whitespace. -/
def skipWs (s : List Char) : List Char := s.dropWhile wsChar

/-- Hexadecimal digit value. -/
def hexVal (c : Char) : Option Nat :=
  if '0' ≤ c ∧ c ≤ '9' then some (c.toNat - 48)
  else if 'a' ≤ c ∧ c ≤ 'f' then some (c.toNat - 87)
  else if 'A' ≤ c ∧ c ≤ 'F' then some (c.toNat - 55)
  else none

/-- Decode one escape sequence (the character after a backslash and what
follows); returns the decoded character and the number of characters
consumed.  Matches the escapes accepted by `encoding/json`; a `\u`
escape naming a surrogate half maps through `Char.ofNat`'s fallback,
which no statement below exercises. -/
def escDecode : List Char → Option (Char × Nat)
  | [] => none
  | e :: cs =>
    if e == '"' then some ('"', 1)
    else if e == '\\' then some ('\\', 1)
    else if e == '/' then some ('/', 1)
    else if e == 'n' then some ('\n', 1)
    else if e == 't' then some ('\t', 1)
    else if e == 'r' then some ('\r', 1)
    else if e == 'b' then some (Char.ofNat 8, 1)
    else if e == 'f' then some (Char.ofNat 12, 1)
    else if e == 'u' then
      match cs with
      | h1 :: h2 :: h3 :: h4 :: _ =>
        match hexVal h1, hexVal h2, hexVal h3, hexVal h4 with
        | some a, some b, some c, some d =>
          some (Char.ofNat (((a * 16 + b) * 16 + c) * 16 + d), 5)
        | _, _, _, _ => none
      | _ => none
    else none

/-- Parse a string body up to the closing quote, decoding escapes, with
a recursion-depth bound.  Go additionally rejects raw control
characters, which only narrows the set of accepted inputs on strings no
statement below exercises. -/
def parseStrBodyF : Nat → List Char → Option (List Char × List Char)
  | 0, _ => none
  | _ + 1, [] => none
  | fuel + 1, c :: cs =>
    if c == '"' then some ([], cs)
    else if c == '\\' then
      match escDecode cs with
      | none => none
      | some (d, n) =>
        match parseStrBodyF fuel (cs.drop n) with
        | none => none
        | some (content, rest) => some (d :: content, rest)
    else
      match parseStrBodyF fuel cs with
      | none => none
      | some (content, rest) => some (c :: content, rest)

/-- Parse a string body up to the closing quote; the fuel equals the
input length, which a step never consumes slower than. -/
def parseStrBody (s : List Char) : Option (List Char × List Char) :=
  parseStrBodyF s.length s

/-- Numeric value of a digit list. -/
def digitsVal (ds : List Char) : Nat :=
  ds.foldl (fun acc c => acc * 10 + (c.toNat - 48)) 0

/-- Parse a decimal number (optional sign, digits, optional fraction).
Exponent notation is not modelled; `encoding/json` additionally rejects
numbers with redundant leading zeros, which only narrows the accepted
inputs. -/
def parseNum (s : List Char) : Option (Json × List Char) :=
  let p : Bool × List Char :=
    match s with
    | c :: cs => if c == '-' then (true, cs) else (false, s)
    | [] => (false, s)
  let neg := p.1
  let ds := p.2.takeWhile Char.isDigit
  let s2 := p.2.dropWhile Char.isDigit
  if ds = [] then none
  else
    match s2 with
    | c :: cs =>
      if c == '.' then
        let fs := cs.takeWhile Char.isDigit
        let s3 := cs.dropWhile Char.isDigit
        if fs = [] then none
        else
          let m : Int := (digitsVal ds * 10 ^ fs.length + digitsVal fs : Nat)
          some (.num (if neg then -m else m) fs.length, s3)
      else some (.num (if neg then -(digitsVal ds : Int) else (digitsVal ds : Int)) 0, s2)
    | [] => some (.num (if neg then -(digitsVal ds : Int) else (digitsVal ds : Int)) 0, [])

mutual

/-- Parse one JSON value; `fuel` bounds the recursion depth and is
immaterial whenever it exceeds the weight of the value parsed. -/
def parseVal : Nat → List Char → Option (Json × List Char)
  | 0, _ => none
  | fuel + 1, s =>
    let s := skipWs s
    match s with
    | [] => none
    | c :: cs =>
      if c == '"' then
        match parseStrBody cs with
        | none => none
        | some (content, rest) => some (.str (String.mk content), rest)
      else if c == lbrace then
        let s1 := skipWs cs
        match s1 with
        | c1 :: cs1 => if c1 == rbrace then some (.obj [], cs1) else parseMembers fuel s1 []
        | [] => none
      else if c == '[' then
        let s1 := skipWs cs
        match s1 with
        | c1 :: cs1 => if c1 == ']' then some (.arr [], cs1) else parseElems fuel s1 []
        | [] => none
      else if isPrefChars "true".data (c :: cs) then some (.bool true, (c :: cs).drop 4)
      else if isPrefChars "false".data (c :: cs) then some (.bool false, (c :: cs).drop 5)
      else if isPrefChars "null".data (c :: cs) then some (.null, (c :: cs).drop 4)
      else parseNum (c :: cs)

/-- Parse the members of an object after the opening brace (first member
not yet consumed), accumulating parsed members. -/
def parseMembers : Nat → List Char → List (String × Json) →
    Option (Json × List Char)
  | 0, _, _ => none
  | fuel + 1, s, acc =>
    let s := skipWs s
    match s with
    | [] => none
    | c :: cs =>
      if c == '"' then
        match parseStrBody cs with
        | none => none
        | some (key, s1) =>
          match skipWs s1 with
          | ':' :: s3 =>
            match parseVal fuel s3 with
            | none => none
            | some (v, s4) =>
              match skipWs s4 with
              | ',' :: s6 => parseMembers fuel s6 (acc ++ [(String.mk key, v)])
              | c2 :: s7 =>
                if c2 == rbrace then some (.obj (acc ++ [(String.mk key, v)]), s7)
                else none
              | [] => none
          | _ => none
      else none

/-- Parse the elements of an array after the opening bracket (first
element not yet consumed), accumulating parsed elements. -/
def parseElems : Nat → List Char → List Json → Option (Json × List Char)
  | 0, _, _ => none
  | fuel + 1, s, acc =>
    match parseVal fuel s with
    | none => none
    | some (v, s1) =>
      match skipWs s1 with
      | ',' :: s2 => parseElems fuel s2 (acc ++ [v])
      | c :: s3 => if c == ']' then some (.arr (acc ++ [v]), s3) else none
      | [] => none

end

/-- Model of `json.Unmarshal`'s tokenizer contract: the whole input must
be a single JSON value with only whitespace around it. -/
def jsonParseFull (s : List Char) : Option Json :=
  match parseVal (s.length + 1) s with
  | some (v, rest) => if skipWs rest = [] then some v else none
  | none => none

end Picoclaw.Json

namespace Picoclaw.Routing

open Picoclaw Picoclaw.Json

/-! ### Supervisor decision parsing (tier_router.go) -/

/-- Decode a JSON array into a Go `[]string`; any non-string element is a
type error. -/
def strListOfJson : List Json → Option (List String)
  | [] => some []
  | .str s :: es => (strListOfJson es).map (fun l => s :: l)
  | _ :: _ => none

/-- Numeric value of a JSON number as ℚ (Go decodes numbers into
float64). -/
def numVal (m : Int) (k : Nat) : ℚ := mkRat m (10 ^ k)

/-- Decode one object member into the `ValidationDecision` being built:
matching fields must have the matching type (`null` is a no-op, as for
`encoding/json`), unknown fields are ignored, later duplicates override,
and a type error is sticky (Go returns the saved error). -/
def decisionField (d : Option ValidationDecision) (f : String × Json) :
    Option ValidationDecision :=
  match d with
  | none => none
  | some dec =>
    if f.1 = "approved" then
      match f.2 with
      | .bool b => some { dec with approved := b }
      | .null => some dec
      | _ => none
    else if f.1 = "confidence" then
      match f.2 with
      | .num m k => some { dec with confidence := numVal m k }
      | .null => some dec
      | _ => none
    else if f.1 = "corrections" then
      match f.2 with
      | .arr es =>
        match strListOfJson es with
        | some l => some { dec with corrections := l }
        | none => none
      | .null => some dec
      | _ => none
    else if f.1 = "final_output" then
      match f.2 with
      | .str s => some { dec with finalOutput := s }
      | .null => some dec
      | _ => none
    else some dec

/-- Model of `json.Unmarshal([]byte(jsonStr), &decision)`: the input must
be a JSON object, whose members are folded into the zero-valued
decision. -/
def unmarshalDecision (s : List Char) : Option ValidationDecision :=
  match jsonParseFull s with
  | some (.obj fs) =>
    fs.foldl decisionField
      (some { approved := false, confidence := 0, corrections := [], finalOutput := "" })
  | some _ => none
  | none => none

/-- Model of tier_router.go `parseValidationDecision`.  The Go method
returns `(decision, error)` but every path returns a nil error, so the
model returns the decision alone. -/
def parseValidationDecision (supervisorContent : String) : ValidationDecision :=
  let cs := supervisorContent.data
  match firstIdx lbrace cs, lastIdx rbrace cs with
  | some i, some j =>
    if j ≤ i then
      { approved := true, confidence := mkRat 7 10, corrections := []
        finalOutput := supervisorContent }
    else
      let jsonStr := (cs.drop i).take (j + 1 - i)
      match unmarshalDecision jsonStr with
      | none =>
        { approved := true, confidence := mkRat 6 10
          corrections := ["Failed to parse validation response"]
          finalOutput := supervisorContent }
      | some d =>
        let d1 :=
          if d.confidence < 0 ∨ d.confidence > 1 then { d with confidence := mkRat 8 10 } else d
        if d1.finalOutput = "" then { d1 with finalOutput := supervisorContent } else d1
  | _, _ =>
    { approved := true, confidence := mkRat 7 10, corrections := []
      finalOutput := supervisorContent }

end Picoclaw.Routing

namespace Picoclaw.Provider

open Picoclaw Picoclaw.Json

/-! ### Text-embedded tool-call recovery
(pkg/providers/openai_compat/provider.go) -/

/-- Synthesized tool call (the fields of `protocoltypes.ToolCall` that
`extractToolCallsFromText` populates); the Go `map[string]any` of
arguments is modelled as an association list of JSON values. -/
structure ToolCall where
  id : String
  name : String
  arguments : List (String × Json)
deriving Inhabited

/-- The first opening tag literal of `textToolCallTagPattern`. -/
def tagOpenFunc : List Char := "<functioncall>".data

/-- The second opening tag literal. -/
def tagOpenTool : List Char := "<tool_call>".data

/-- The third opening tag literal. -/
def tagOpenBracket : List Char := "[TOOL_CALL]".data

/-- The three opening tags. -/
def tagList : List (List Char) := [tagOpenFunc, tagOpenTool, tagOpenBracket]

/-- Whitespace class of RE2's `\s` (ASCII: tab, newline, form feed,
carriage return, space). -/
def reWs (c : Char) : Bool :=
  c == '\t' || c == '\n' || c == Char.ofNat 12 || c == '\r' || c == ' '

/-- Length of the leading `\s*` run. -/
def wsLen (s : List Char) : Nat := (s.takeWhile reWs).length

/-- Match of the regex `<(?:functioncall|tool_call)>\s*|\[TOOL_CALL\]\s*`
anchored at the start of `s`: the matched length, if any.  The three
alternatives start with distinct characters, so RE2's leftmost-first
choice is exhausted by trying them in order; `\s*` is greedy. -/
def matchTagAt (s : List Char) : Option Nat :=
  if isPrefChars tagOpenFunc s then some (14 + wsLen (s.drop 14))
  else if isPrefChars tagOpenTool s then some (11 + wsLen (s.drop 11))
  else if isPrefChars tagOpenBracket s then some (11 + wsLen (s.drop 11))
  else none

/-- Model of `FindAllStringIndex` on that pattern, leftmost-first and
non-overlapping, returning for each match the suffix of the content
following the match (which is what the extraction loop consumes). -/
def findTagsF : Nat → List Char → List (List Char)
  | 0, _ => []
  | _ + 1, [] => []
  | fuel + 1, c :: cs =>
    match matchTagAt (c :: cs) with
    | some n => (c :: cs).drop n :: findTagsF fuel ((c :: cs).drop n)
    | none => findTagsF fuel cs

/-- The scan entry point; the fuel equals the content length, which a
step never consumes slower than (a tag match is at least one character
long). -/
def findTags (s : List Char) : List (List Char) :=
  findTagsF s.length s

/-- Model of provider.go `extractBalancedJSON`'s scanning loop: walk the
characters tracking nesting depth, string state and escape state,
returning the consumed characters once depth returns to zero.  Depth is
an `Int`, as in Go. -/
def scanBalanced : List Char → Int → Bool → Bool → List Char → Option (List Char)
  | [], _, _, _, _ => none
  | c :: cs, depth, inStr, esc, acc =>
    if esc then scanBalanced cs depth inStr false (acc ++ [c])
    else if c == '\\' && inStr then scanBalanced cs depth inStr true (acc ++ [c])
    else if c == '"' then scanBalanced cs depth (!inStr) false (acc ++ [c])
    else if inStr then scanBalanced cs depth inStr esc (acc ++ [c])
    else if c == lbrace then scanBalanced cs (depth + 1) inStr esc (acc ++ [c])
    else if c == rbrace then
      if depth - 1 = 0 then some (acc ++ [c])
      else scanBalanced cs (depth - 1) inStr esc (acc ++ [c])
    else scanBalanced cs depth inStr esc (acc ++ [c])

/-- Model of provider.go `extractBalancedJSON`: find the first opening
brace and scan to its balanced closing brace; the empty list models the
empty-string sentinel for "not found / unbalanced". -/
def extractBalancedJSON (s : List Char) : List Char :=
  let t := s.dropWhile (fun c => c != lbrace)
  match t with
  | [] => []
  | _ :: _ =>
    match scanBalanced t 0 false false [] with
    | some r => r
    | none => []

/-- Decode one member of the text tool-call payload into the
`struct {Name string; Arguments any}` being built: `name` must be a
string (`null` is a no-op), `arguments` takes any value, unknown fields
are ignored, a type error is sticky. -/
def callField (d : Option (String × Option Json)) (f : String × Json) :
    Option (String × Option Json) :=
  match d with
  | none => none
  | some (name, args) =>
    if f.1 = "name" then
      match f.2 with
      | .str s => some (s, args)
      | .null => some (name, args)
      | _ => none
    else if f.1 = "arguments" then
      match f.2 with
      | .null => some (name, none)
      | v => some (name, some v)
    else some (name, args)

/-- Model of the `json.Unmarshal` of one extracted payload into
`struct {Name string; Arguments any}`. -/
def unmarshalCall (s : List Char) : Option (String × Option Json) :=
  match jsonParseFull s with
  | some (.obj fs) => fs.foldl callField (some ("", none))
  | some _ => none
  | none => none

/-- Arguments map computed from the decoded `Arguments any` value
(provider.go lines 369-378): an object is taken as is; a string is
parsed again as JSON and falls back to `{raw: <string>}`; anything else
leaves the empty map. -/
def argumentsOf (args : Option Json) : List (String × Json) :=
  match args with
  | some (.obj fs) => fs
  | some (.str a) =>
    match jsonParseFull a.data with
    | some (.obj fs) => fs
    | _ => [("raw", .str a)]
  | _ => []

/-- Model of provider.go `extractToolCallsFromText`. -/
def extractToolCallsFromText (content : List Char) : List ToolCall :=
  (findTags content).foldl
    (fun acc remaining =>
      let jsonStr := extractBalancedJSON remaining
      if jsonStr = [] then acc
      else
        match unmarshalCall jsonStr with
        | none => acc
        | some (name, args) =>
          if name = "" then acc
          else
            acc ++ [{ id := "textcall_" ++ Nat.repr acc.length, name := name
                      arguments := argumentsOf args }])
    []

/-- Model of the text-recovery step of provider.go `parseResponse`
(lines 236-244): when there are no structured tool calls and the content
is non-empty, recovered calls replace the tool-call list, the content is
blanked and the finish reason becomes `tool_calls`.  Returns
(content, finish reason, tool calls). -/
def applyTextRecovery (content finishReason : String) (toolCalls : List ToolCall) :
    String × String × List ToolCall :=
  if toolCalls.length = 0 ∧ content ≠ "" then
    let extracted := extractToolCallsFromText content.data
    if extracted.length > 0 then ("", "tool_calls", extracted)
    else (content, finishReason, toolCalls)
  else (content, finishReason, toolCalls)

/-! ### The spec's rendering side of the recovery round trip -/

/-- Tool call as quantified over by the spec's round-trip law: a name and
a JSON-serializable argument object. -/
structure PlainCall where
  name : String
  arguments : List (String × Json)

/-- The closing tag of a rendered tool call. -/
def closeTagChars : List Char := "</functioncall>".data

/-- The JSON payload of a rendered tool call. -/
def callPayload (c : PlainCall) : Json :=
  .obj [("name", .str c.name), ("arguments", .obj c.arguments)]

/-- Modelled from the spec: `render_as_text` renders one tool call as
`<functioncall>` followed by the JSON payload
`{"name": ..., "arguments": ...}` and the closing tag. -/
def renderCall (c : PlainCall) : List Char :=
  tagOpenFunc ++ serJson (callPayload c) ++ closeTagChars

/-- Modelled from the spec: a response text carrying the given tool calls
and nothing else. -/
def renderCalls (calls : List PlainCall) : List Char :=
  (calls.map renderCall).flatten

/-- The suffixes following each tag match when scanning a rendered call
list (used to characterize `findTags` on rendered content). -/
def tagSuffixes : List PlainCall → List (List Char)
  | [] => []
  | c :: cs => (serJson (callPayload c) ++ (closeTagChars ++ renderCalls cs)) :: tagSuffixes cs

/-- The tool calls the recovery is expected to synthesize, with generated
IDs counting from `k`. -/
def expectedCalls (k : Nat) : List PlainCall → List ToolCall
  | [] => []
  | c :: cs =>
    { id := "textcall_" ++ Nat.repr k, name := c.name, arguments := c.arguments } ::
      expectedCalls (k + 1) cs

/-- A character sequence the brace scanner passes through without
touching the depth-zero check: scanning it from any nonzero depth
outside a string consumes it verbatim. -/
def ScanNeutral (xs : List Char) : Prop :=
  ∀ (ys : List Char) (d : Int) (acc : List Char), 0 < d →
    scanBalanced (xs ++ ys) d false false acc = scanBalanced ys d false false (acc ++ xs)

/-- A suffix that cannot extend a decimal literal to its left (used as
the residue condition of the number-parsing round trip). -/
def numSafe : List Char → Bool
  | [] => true
  | c :: _ => !c.isDigit && c != '.'

/-- The tool call whose rendered payload embeds tag text inside an
argument string (the round-trip counterexample). -/
def cevil : PlainCall where
  name := "f"
  arguments :=
    [("a", .str "<tool_call>"), ("b", .obj [("name", .str "evil"), ("arguments", .obj [])])]

end Picoclaw.Provider

namespace Picoclaw.Routing

open Picoclaw

/-! ### Cost tracking (cost_tracker.go) -/

/-- Token usage of one call (protocoltypes.UsageInfo). -/
structure UsageInfo where
  promptTokens : Nat
  completionTokens : Nat
  totalTokens : Nat
deriving Repr, DecidableEq

/-- Per-model cost bucket (cost_tracker.go `ModelCost`); latencies are
nanosecond counts (Go `time.Duration`). -/
structure ModelCost where
  modelName : String
  inputTokens : Nat
  outputTokens : Nat
  calls : Nat
  totalCost : ℚ
  totalLatency : Int
  avgLatency : Int
deriving Repr, DecidableEq

/-- Per-tier cost bucket (cost_tracker.go `TierCost`). -/
structure TierCost where
  tierName : String
  inputTokens : Nat
  outputTokens : Nat
  calls : Nat
  totalCost : ℚ
  totalLatency : Int
deriving Repr, DecidableEq

/-- Supervision metrics sub-accumulator.  Modelled from the spec: the
`SessionCost` of §3 carries {total supervisions, failed validations,
total supervision cost, corrections count, estimated savings}; the
repository's tests read these as `Supervision.TotalSupervisions`,
`Supervision.FailedValidations`, `Supervision.TotalSupervisionCost` and
`Supervision.SupervisionSavings`, but the field and the recording method
are absent from the embedded cost_tracker.go. -/
structure SupervisionMetrics where
  totalSupervisions : Nat
  failedValidations : Nat
  totalSupervisionCost : ℚ
  correctionsApplied : Nat
  supervisionSavings : ℚ
deriving Repr, DecidableEq

/-- The zero supervision metrics. -/
def SupervisionMetrics.zero : SupervisionMetrics :=
  { totalSupervisions := 0, failedValidations := 0, totalSupervisionCost := 0
    correctionsApplied := 0, supervisionSavings := 0 }

/-- Session cost record (cost_tracker.go `SessionCost`, plus the
spec-modelled supervision sub-accumulator); Go maps become association
lists. -/
structure SessionCost where
  sessionKey : String
  byModel : List (String × ModelCost)
  byTier : List (String × TierCost)
  totalCost : ℚ
  startTime : Int
  lastUpdate : Int
  supervision : SupervisionMetrics
deriving Repr, DecidableEq

/-- Cost tracker state (cost_tracker.go `CostTracker`; the mutex guards
concurrent access and has no sequential content). -/
structure CostTracker where
  sessions : List (String × SessionCost)
deriving Repr, DecidableEq

/-- Look up an association list with a default. -/
def getOr {α : Type} (l : List (String × α)) (k : String) (d : α) : α :=
  match l.find? (fun p => p.1 = k) with
  | some p => p.2
  | none => d

/-- Write a key into an association list (insert at the end when new, as
a Go map creation; lookup order is immaterial as keys are unique). -/
def setKey {α : Type} (l : List (String × α)) (k : String) (v : α) : List (String × α) :=
  if (l.find? (fun p => p.1 = k)).isSome then
    l.map (fun p => if p.1 = k then (k, v) else p)
  else l ++ [(k, v)]

/-- The fresh session record created by `Record` and `RecordSupervision`
for an unknown key. -/
def freshSession (sessionKey : String) (now : Int) : SessionCost :=
  { sessionKey := sessionKey, byModel := [], byTier := [], totalCost := 0
    startTime := now, lastUpdate := 0, supervision := SupervisionMetrics.zero }

/-- Model of cost_tracker.go `Record`: accumulate tokens, calls, cost and
latency into the session's model and tier buckets. -/
def record (ct : CostTracker) (now : Int) (sessionKey modelName tierName : String)
    (tierCfg : TierConfig) (usage : UsageInfo) (latency : Int) : CostTracker :=
  let session := getOr ct.sessions sessionKey (freshSession sessionKey now)
  let model := getOr session.byModel modelName
    { modelName := modelName, inputTokens := 0, outputTokens := 0, calls := 0
      totalCost := 0, totalLatency := 0, avgLatency := 0 }
  let tier := getOr session.byTier tierName
    { tierName := tierName, inputTokens := 0, outputTokens := 0, calls := 0
      totalCost := 0, totalLatency := 0 }
  let callCost := (usage.promptTokens : ℚ) / 1000000 * tierCfg.costPerM.input +
    (usage.completionTokens : ℚ) / 1000000 * tierCfg.costPerM.output
  let model1 :=
    { model with
        inputTokens := model.inputTokens + usage.promptTokens
        outputTokens := model.outputTokens + usage.completionTokens
        calls := model.calls + 1
        totalCost := model.totalCost + callCost
        totalLatency := model.totalLatency + latency
        avgLatency := (model.totalLatency + latency) / (model.calls + 1 : Nat) }
  let tier1 :=
    { tier with
        inputTokens := tier.inputTokens + usage.promptTokens
        outputTokens := tier.outputTokens + usage.completionTokens
        calls := tier.calls + 1
        totalCost := tier.totalCost + callCost
        totalLatency := tier.totalLatency + latency }
  let session1 :=
    { session with
        byModel := setKey session.byModel modelName model1
        byTier := setKey session.byTier tierName tier1
        totalCost := session.totalCost + callCost
        lastUpdate := now }
  { sessions := setKey ct.sessions sessionKey session1 }

/-- Modelled from the spec: `record_supervision(session, success, failed,
fallback, corrections, cost, confidence, savings)` accumulates the
supervision sub-metrics of the session.  The method is referenced by
tier_router.go `recordSupervisionMetrics` and by the repository's tests
but absent from the embedded cost_tracker.go. -/
def recordSupervision (ct : CostTracker) (now : Int) (sessionKey : String)
    (validationSuccess validationFailed fallbackUsed : Bool)
    (correctionsCount : Nat) (supervisionCost confidenceScore costSavings : ℚ) :
    CostTracker :=
  let _ := validationSuccess
  let _ := fallbackUsed
  let _ := confidenceScore
  let session := getOr ct.sessions sessionKey (freshSession sessionKey now)
  let sup := session.supervision
  let sup1 :=
    { sup with
        totalSupervisions := sup.totalSupervisions + 1
        failedValidations := sup.failedValidations + (if validationFailed then 1 else 0)
        totalSupervisionCost := sup.totalSupervisionCost + supervisionCost
        correctionsApplied := sup.correctionsApplied + correctionsCount
        supervisionSavings := sup.supervisionSavings + costSavings }
  { sessions := setKey ct.sessions sessionKey { session with supervision := sup1, lastUpdate := now } }

/-- Model of tier_router.go `recordSupervisionMetrics` (defined at lines
762-785 and called from no branch of the supervision flow). -/
def recordSupervisionMetrics (ct : CostTracker) (now : Int) (sessionKey : String)
    (validationSuccess validationFailed fallbackUsed : Bool)
    (correctionsCount : Nat) (supervisionCost confidenceScore costSavings : ℚ) :
    CostTracker :=
  recordSupervision ct now sessionKey validationSuccess validationFailed fallbackUsed
    correctionsCount supervisionCost confidenceScore costSavings

/-- The supervision metrics of a session as an observer (zero when the
session is unknown). -/
def supervisionOf (ct : CostTracker) (sessionKey : String) : SupervisionMetrics :=
  (getOr ct.sessions sessionKey (freshSession sessionKey 0)).supervision

/-! ### Supervised routing (tier_router.go `RouteWithSupervision`,
`ExecuteWithSupervision`, `validateOutput`)

The provider exchange inside `RouteChat` is environment input; each
possible supervisor or worker call is therefore a parameter of type
`Option ChatSuccess` (`none` models a transport error, in which case
`RouteChat` records nothing; on success `RouteChat` records usage in the
cost tracker before returning). -/

/-- Outcome data of one successful `RouteChat`: the response content and
what gets recorded in the cost tracker. -/
structure ChatSuccess where
  content : String
  modelName : String
  tierName : String
  tierCfg : TierConfig
  usage : UsageInfo
  latency : Int
deriving Repr, DecidableEq

/-- Cost-recording half of `RouteChat` (tier_router.go lines 381-407):
nothing is recorded on error. -/
def routeChatRecord (ct : CostTracker) (now : Int) (sessionKey : String)
    (outcome : Option ChatSuccess) : Option ChatSuccess × CostTracker :=
  match outcome with
  | none => (none, ct)
  | some s =>
    (some s, record ct now sessionKey s.modelName s.tierName s.tierCfg s.usage s.latency)

/-- Model of tier_router.go `selectWorkerModel`; Go indexes
`modelList[0]` and would panic on an empty list, modelled by `""`. -/
def selectWorkerModel (modelList : List String) (t : TaskType) : String :=
  let light := t = .parsing ∨ t = .summary ∨ t = .formatting ∨ t = .triage
  let lower := fun (m : String) => String.mk (lowerChars m.data)
  if light then
    match modelList.find? (fun m =>
        goContains (lower m) "haiku" ∨ goContains (lower m) "3.5-turbo" ∨
        goContains (lower m) "local") with
    | some m => m
    | none => modelList.headD ""
  else modelList.headD ""

/-- Model of tier_router.go `selectSupervisorModel`. -/
def selectSupervisorModel (modelList : List String) : String :=
  let lower := fun (m : String) => String.mk (lowerChars m.data)
  match modelList.find? (fun m =>
      goContains (lower m) "gpt-4" ∨ goContains (lower m) "claude-3-opus" ∨
      goContains (lower m) "claude-3.5-sonnet") with
  | some m => m
  | none => modelList.headD ""

/-- Model of tier_router.go `createFallbackResult` (the nil error it
pairs with is represented by the caller wrapping in `Except.ok`). -/
def createFallbackResult (modelList : List String) (originalTask : TaskType)
    (workerContent : String) : SupervisionResult :=
  { originalTask := originalTask, supervisorTask := .supervision, validated := false
    corrections := [], finalOutput := workerContent, supervisorModel := "fallback"
    workerModel := selectWorkerModel modelList originalTask
    validationScore := mkRat 1 2, supervisorConfidence := mkRat 1 2 }

/-- The post-parse decision table of tier_router.go `validateOutput`
(lines 546-605).  The parse-failure branch of the Go code is dead, since
`parseValidationDecision` returns a nil error on every path. -/
def validateDecide (modelList : List String) (originalTask : TaskType)
    (workerContent supContent : String) : Except String SupervisionResult :=
  let d := parseValidationDecision supContent
  if d.approved ∧ d.confidence ≥ mkRat 7 10 then
    .ok { originalTask := originalTask, supervisorTask := .supervision, validated := true
          corrections := d.corrections, finalOutput := d.finalOutput
          supervisorModel := selectSupervisorModel modelList
          workerModel := selectWorkerModel modelList originalTask
          validationScore := d.confidence, supervisorConfidence := d.confidence }
  else if isHighStakesTask originalTask then
    .error "high-stakes task failed validation"
  else if d.finalOutput ≠ "" ∧ d.finalOutput ≠ workerContent then
    .ok { originalTask := originalTask, supervisorTask := .supervision, validated := false
          corrections := d.corrections, finalOutput := d.finalOutput
          supervisorModel := selectSupervisorModel modelList
          workerModel := selectWorkerModel modelList originalTask
          validationScore := d.confidence, supervisorConfidence := d.confidence }
  else
    .ok (createFallbackResult modelList originalTask workerContent)

/-- Model of tier_router.go `validateOutput`: up to two supervisor
attempts with immediate retry; after the final failure the fallback
result is returned with a nil error; on success the decision table is
applied to the supervisor's content. -/
def validateOutput (modelList : List String) (ct : CostTracker) (now : Int)
    (originalTask : TaskType) (workerContent : String)
    (att1 att2 : Option ChatSuccess) (sessionKey : String) :
    Except String SupervisionResult × CostTracker :=
  let r1 := routeChatRecord ct now sessionKey att1
  match r1.1 with
  | some sup => (validateDecide modelList originalTask workerContent sup.content, r1.2)
  | none =>
    let r2 := routeChatRecord r1.2 now sessionKey att2
    match r2.1 with
    | some sup => (validateDecide modelList originalTask workerContent sup.content, r2.2)
    | none => (.ok (createFallbackResult modelList originalTask workerContent), r2.2)

/-- Model of tier_router.go `ExecuteWithSupervision`. -/
def executeWithSupervision (rules : List ValidationRule) (modelList : List String)
    (ct : CostTracker) (now : Int) (taskType : TaskType)
    (workerOutcome supAtt1 supAtt2 : Option ChatSuccess) (sessionKey : String) :
    Except String SupervisionResult × CostTracker :=
  let needsVal :=
    match getValidationRule rules taskType with
    | some r => r.requiresValidation
    | none => false
  let r := routeChatRecord ct now sessionKey workerOutcome
  match r.1 with
  | none => (.error "route failed", r.2)
  | some w =>
    if needsVal then
      validateOutput modelList r.2 now taskType w.content supAtt1 supAtt2 sessionKey
    else
      (.ok { originalTask := taskType, supervisorTask := taskType, validated := true
             corrections := [], finalOutput := w.content, supervisorModel := "none"
             workerModel := selectWorkerModel modelList taskType
             validationScore := 0, supervisorConfidence := 0 }, r.2)

/-- Model of tier_router.go `RouteWithSupervision`: without a supervision
router the single routed response is wrapped as a validated result. -/
def routeWithSupervision (supervisorPresent : Bool) (rules : List ValidationRule)
    (modelList : List String) (ct : CostTracker) (now : Int) (taskType : TaskType)
    (workerOutcome supAtt1 supAtt2 : Option ChatSuccess) (sessionKey : String) :
    Except String SupervisionResult × CostTracker :=
  if supervisorPresent then
    executeWithSupervision rules modelList ct now taskType workerOutcome supAtt1 supAtt2
      sessionKey
  else
    let r := routeChatRecord ct now sessionKey workerOutcome
    match r.1 with
    | none => (.error "route failed", r.2)
    | some w =>
      (.ok { originalTask := taskType, supervisorTask := taskType, validated := true
             corrections := [], finalOutput := w.content, supervisorModel := "direct"
             workerModel := "direct", validationScore := 0, supervisorConfidence := 0 }, r.2)

end Picoclaw.Routing

namespace Picoclaw.Workflow

/-! ### Concrete fixtures used by counterexamples and witnesses -/

/-- A required step. -/
def stepS1 : Step where
  id := "s1"
  name := "S1"
  description := ""
  required := true
  completed := false

/-- An optional step. -/
def stepS2 : Step where
  id := "s2"
  name := "S2"
  description := ""
  required := false
  completed := false

/-- A single all-required phase. -/
def phaseP1 : Phase where
  name := "p1"
  steps := [stepS1, stepS2]
  completion := { type := "all_required", description := "" }
  branches := []

/-- A one-phase workflow. -/
def wf1 : Workflow where
  name := "w"
  description := ""
  phases := [phaseP1]

/-- The fresh mission state of `wf1`. -/
def st1 : MissionState := newMissionState wf1 "t" 0

/-- The steps-complete list of the current (latest) phase execution, as
an observer for idempotence statements. -/
def currentStepsOf (s : MissionState) : List String :=
  match lastExec s with
  | some e => e.stepsComplete
  | none => []

end Picoclaw.Workflow

namespace Picoclaw.Routing

/-! ### Concrete fixtures for routing witnesses -/

/-- An empty cost tracker. -/
def ct0 : CostTracker := { sessions := [] }

/-- A tier configuration fixture. -/
def tierCfg0 : TierConfig :=
  { modelName := "claude-3-haiku", useFor := ["analysis"]
    costPerM := { input := 1, output := 2 } }

/-- A successful worker exchange returning `"T1"`. -/
def chatW : ChatSuccess :=
  { content := "T1", modelName := "claude-3-haiku", tierName := "fast", tierCfg := tierCfg0
    usage := { promptTokens := 10, completionTokens := 20, totalTokens := 30 }
    latency := 100 }

/-- A supervisor reply rejecting the worker output with corrections
(the spec's scenario S4). -/
def supContentS4 : String :=
  "\x7b\"approved\":false,\"confidence\":0.9,\"corrections\":[\"c1\",\"c2\"],\"final_output\":\"T2\"\x7d"

/-- The supervisor exchange carrying that reply. -/
def chatSupS4 : ChatSuccess := { chatW with content := supContentS4 }

/-- The decision that reply parses to. -/
def decisionS4 : ValidationDecision :=
  { approved := false, confidence := mkRat 9 10, corrections := ["c1", "c2"]
    finalOutput := "T2" }

/-- A model list fixture. -/
def modelListA : List String := ["claude-3-haiku", "claude-3-opus"]

/-- A supervisor reply whose confidence field is out of range. -/
def supContentConf2 : String :=
  "\x7b\"approved\":true,\"confidence\":2,\"corrections\":[],\"final_output\":\"y\"\x7d"

/-- A supervisor reply with an in-range confidence. -/
def supContent095 : String :=
  "\x7b\"approved\":true,\"confidence\":0.95,\"corrections\":[],\"final_output\":\"y\"\x7d"

/-- The decision `supContent095` parses to. -/
def decision095 : ValidationDecision where
  approved := true
  confidence := mkRat 95 100
  corrections := []
  finalOutput := "y"

/-- A plain mid-session context with empty user text. -/
def ctxEmpty : AgentContext where
  turnCount := 2
  lastToolOutput := ""
  phaseChanged := false
  userMessage := ""
  toolsAvailable := 0
  reportRequested := false
  sessionStarted := false
  requiresSupervision := false
  confidenceScore := 0
  taskComplexity := 0
  dependentTasks := []

end Picoclaw.Routing

namespace Picoclaw.Workflow

/-! ### Workflow engine lemmas -/

theorem lastExec_setLastExec (s : MissionState) (e : PhaseExecution) :
    lastExec (setLastExec s e) = some e := by
  simp [lastExec, setLastExec]

theorem ensureExec_branches (w : Workflow) (now : Int) (s : MissionState) :
    (ensureExec w now s).activeBranches = s.activeBranches := by
  unfold ensureExec startPhaseExecution
  split <;> [skip; rfl]
  split <;> rfl

theorem ensureExec_currentPhase (w : Workflow) (now : Int) (s : MissionState) :
    (ensureExec w now s).currentPhase = s.currentPhase := by
  unfold ensureExec startPhaseExecution
  split <;> [skip; rfl]
  split <;> rfl

theorem ensureExec_of_ne_nil (w : Workflow) (now : Int) (s : MissionState)
    (h : s.phaseHistory ≠ []) : ensureExec w now s = s := by
  unfold ensureExec
  simp [List.length_eq_zero.not.mpr h]

theorem ensureExec_nonempty (w : Workflow) (now : Int) (s : MissionState)
    (h : s.currentPhase < w.phases.length) :
    (ensureExec w now s).phaseHistory ≠ [] := by
  unfold ensureExec startPhaseExecution
  split
  · simp [Nat.not_le.mpr h]
  · rename_i hlen
    exact fun hnil => hlen (by simp [hnil])

theorem lastExec_eq_none_iff (s : MissionState) :
    lastExec s = none ↔ s.phaseHistory = [] := by
  simp [lastExec, List.getLast?_eq_none_iff]

theorem lastExec_isSome_of_ne_nil (s : MissionState) (h : s.phaseHistory ≠ []) :
    ∃ e, lastExec s = some e := by
  cases he : lastExec s with
  | none => exact absurd ((lastExec_eq_none_iff s).mp he) h
  | some e => exact ⟨e, rfl⟩

theorem ensureExec_nil_cases (w : Workflow) (now : Int) (s : MissionState)
    (h : (ensureExec w now s).phaseHistory = []) :
    ensureExec w now s = s ∧ s.phaseHistory = [] ∧ w.phases.length ≤ s.currentPhase := by
  unfold ensureExec startPhaseExecution at h ⊢
  split at h
  · rename_i hlen
    split at h
    · rename_i hcp
      refine ⟨by simp_all, List.length_eq_zero.mp hlen, hcp⟩
    · simp at h
  · rename_i hlen
    exact absurd (by simp [h]) hlen

/-- C8 helper: the state produced by `markStepComplete` always contains
the step in its current execution list, unless no execution exists. -/
theorem markStepComplete_state (w : Workflow) (now : Int) (s : MissionState) (x : String) :
    (markStepComplete w now s x).state = ensureExec w now s ∨
    (∃ e, lastExec (ensureExec w now s) = some e ∧ x ∉ e.stepsComplete ∧
      (markStepComplete w now s x).state =
        setLastExec (ensureExec w now s) { e with stepsComplete := e.stepsComplete ++ [x] }) := by
  unfold markStepComplete
  cases he : lastExec (ensureExec w now s) with
  | none => left; simp [he]
  | some e =>
    by_cases hc : x ∈ e.stepsComplete
    · left; simp [he, hc]
    · right; exact ⟨e, rfl, hc, by simp [he, hc]⟩

/-- The claim C8 (idempotence part): marking a step twice produces the
same mission state as marking it once, regardless of the timestamps. -/
theorem markStepComplete_idem (w : Workflow) (now now2 : Int) (s : MissionState)
    (x : String) :
    (markStepComplete w now2 (markStepComplete w now s x).state x).state =
      (markStepComplete w now s x).state := by
  unfold markStepComplete
  cases he : lastExec (ensureExec w now s) with
  | none =>
    -- no execution could be created: the ensured state has an empty
    -- history, so the second call hits the same error path
    have hnil : (ensureExec w now s).phaseHistory = [] :=
      (lastExec_eq_none_iff _).mp he
    obtain ⟨hid, hsnil, hcp⟩ := ensureExec_nil_cases w now s hnil
    have h2 : ensureExec w now2 (ensureExec w now s) = ensureExec w now s := by
      rw [hid]
      unfold ensureExec startPhaseExecution
      simp [hsnil, Nat.not_lt.mpr hcp]
    simp only [he, h2]
  | some e =>
    have hne : (ensureExec w now s).phaseHistory ≠ [] := by
      intro hnil
      rw [(lastExec_eq_none_iff _).mpr hnil] at he
      exact Option.noConfusion he
    by_cases hc : x ∈ e.stepsComplete
    · have hcb : e.stepsComplete.contains x = true := by simp [hc]
      simp only [he, hcb, if_true]
      rw [ensureExec_of_ne_nil _ _ _ hne, he]
      simp [hc]
    · have hcb : e.stepsComplete.contains x = false := by simp [hc]
      simp only [he, hcb, Bool.false_eq_true, if_false]
      have hne2 : (setLastExec (ensureExec w now s)
          { e with stepsComplete := e.stepsComplete ++ [x] }).phaseHistory ≠ [] := by
        simp [setLastExec]
      rw [ensureExec_of_ne_nil _ _ _ hne2, lastExec_setLastExec]
      simp

/-- The claim C8 (set-semantics part): if a step occurs at most once in
the current execution list, it still occurs at most once after marking
it complete. -/
theorem markStepComplete_count (w : Workflow) (now : Int) (s : MissionState) (x : String)
    (h : (currentStepsOf s).count x ≤ 1) :
    (currentStepsOf (markStepComplete w now s x).state).count x ≤ 1 := by
  rcases markStepComplete_state w now s x with h1 | ⟨e, he, hc, h1⟩
  · rw [h1]
    unfold currentStepsOf at *
    cases hs : lastExec s with
    | none =>
      -- the history was empty; an ensured execution (if created) is fresh
      have hnil : s.phaseHistory = [] := (lastExec_eq_none_iff _).mp hs
      by_cases hcp : s.currentPhase ≥ w.phases.length
      · have hid : ensureExec w now s = s := by
          unfold ensureExec startPhaseExecution
          simp [hnil, hcp]
        rw [hid, hs]
        simp
      · unfold ensureExec startPhaseExecution
        simp [hnil, hcp, lastExec]
    | some e =>
      have hne : s.phaseHistory ≠ [] := by
        intro hnil
        rw [(lastExec_eq_none_iff _).mpr hnil] at hs
        exact Option.noConfusion hs
      rw [ensureExec_of_ne_nil _ _ _ hne, hs]
      rw [hs] at h
      exact h
  · rw [h1]
    unfold currentStepsOf
    rw [lastExec_setLastExec]
    have hzero : e.stepsComplete.count x = 0 := List.count_eq_zero.mpr hc
    simp [List.count_append, hzero]

/-- The claim C8: marking a step complete twice yields the same mission
state as marking it once (for any timestamps), and the step ID occurs at
most once in the current execution's completed-steps list (whenever it
did before, as it does in every state reachable from a fresh mission). -/
theorem markStepComplete_spec (w : Workflow) (now now2 : Int) (s : MissionState)
    (x : String) (h : (currentStepsOf s).count x ≤ 1) :
    (markStepComplete w now2 (markStepComplete w now s x).state x).state =
      (markStepComplete w now s x).state ∧
    (currentStepsOf (markStepComplete w now s x).state).count x ≤ 1 :=
  ⟨markStepComplete_idem w now now2 s x, markStepComplete_count w now s x h⟩

/-- Witness for C8. -/
theorem markStepComplete_spec_witness :
    (currentStepsOf st1).count "s1" ≤ 1 ∧
      ((markStepComplete wf1 4 (markStepComplete wf1 3 st1 "s1").state "s1").state =
        (markStepComplete wf1 3 st1 "s1").state ∧
      (currentStepsOf (markStepComplete wf1 3 st1 "s1").state).count "s1" ≤ 1) :=
  ⟨by decide, markStepComplete_spec wf1 3 4 st1 "s1" (by decide)⟩

/-- The claim C7: phase completion is decided by the completion type of
the current phase: all required steps done (`all_required`), at least
one active branch (`any_branch`), never (`custom`). -/
theorem isPhaseComplete_spec (w : Workflow) (now : Int) (s : MissionState)
    (h : s.currentPhase < w.phases.length)
    (e : PhaseExecution) (he : lastExec (ensureExec w now s) = some e) :
    ((w.phases.getD s.currentPhase default).completion.type = CompletionAllRequired →
      ((isPhaseComplete w now s).1 = true ↔
        ∀ step ∈ (w.phases.getD s.currentPhase default).steps,
          step.required = true → step.id ∈ e.stepsComplete)) ∧
    ((w.phases.getD s.currentPhase default).completion.type = CompletionAnyBranch →
      ((isPhaseComplete w now s).1 = true ↔ s.activeBranches ≠ [])) ∧
    ((w.phases.getD s.currentPhase default).completion.type = CompletionCustom →
      (isPhaseComplete w now s).1 = false) := by
  unfold isPhaseComplete
  rw [if_neg (by omega)]
  simp only [he]
  refine ⟨fun htype => ?_, fun htype => ?_, fun htype => ?_⟩
  · rw [htype, if_pos rfl]
    simp only [List.all_eq_true, isStepComplete]
    constructor
    · intro hall step hmem hreq
      have := hall step hmem
      rw [hreq] at this
      simpa using this
    · intro hall step hmem
      by_cases hreq : step.required = true
      · simp [hreq, hall step hmem hreq]
      · simp only [Bool.not_eq_true] at hreq
        simp [hreq]
  · rw [htype]
    rw [if_neg (by simp [CompletionAnyBranch, CompletionAllRequired]), if_pos rfl]
    rw [ensureExec_branches]
    simp [List.length_pos]
  · rw [htype]
    rw [if_neg (by simp [CompletionCustom, CompletionAllRequired]),
      if_neg (by simp [CompletionCustom, CompletionAnyBranch])]

/-- Witness for C7: with the required step `s1` complete and the
optional `s2` incomplete, the all-required phase counts as complete. -/
theorem isPhaseComplete_spec_witness :
    (isPhaseComplete wf1 9 (markStepComplete wf1 3 st1 "s1").state).1 = true := by
  have h := isPhaseComplete_spec wf1 9 (markStepComplete wf1 3 st1 "s1").state
    (by decide)
    { phaseName := "p1", startTime := 3, endTime := none, stepsComplete := ["s1"]
      notes := [] }
    (by decide)
  exact (h.1 (by decide)).mpr (by decide)

/-- The claim C10 (amended): advancing from the last phase errors
without saving and without touching the phase counter; the latest phase
execution's end time is nevertheless set to the call time -- and when
the history was empty and a current phase exists, a fresh execution is
first created (growing the history from 0 to 1 entries). -/
theorem advancePhase_at_last (w : Workflow) (now : Int) (s : MissionState)
    (h : s.currentPhase + 1 ≥ w.phases.length) :
    (advancePhase w now s).err = some "already at final phase" ∧
    (advancePhase w now s).state.currentPhase = s.currentPhase ∧
    (advancePhase w now s).saved = false ∧
    (s.phaseHistory ≠ [] →
      (advancePhase w now s).state.phaseHistory.length = s.phaseHistory.length ∧
      ∃ e, lastExec s = some e ∧
        lastExec (advancePhase w now s).state = some { e with endTime := some now }) ∧
    (s.phaseHistory = [] →
      (s.currentPhase < w.phases.length →
        (advancePhase w now s).state.phaseHistory.length = 1 ∧
        ∃ e, lastExec (advancePhase w now s).state = some e ∧ e.endTime = some now) ∧
      (w.phases.length ≤ s.currentPhase → (advancePhase w now s).state = s)) := by
  cases he : lastExec (ensureExec w now s) with
  | none =>
    -- no execution exists: the ensured state is the original one
    have hnil : (ensureExec w now s).phaseHistory = [] := (lastExec_eq_none_iff _).mp he
    obtain ⟨hid, hsnil, hcp⟩ := ensureExec_nil_cases w now s hnil
    have hred : advancePhase w now s =
        { state := ensureExec w now s, err := some "already at final phase"
          saved := false } := by
      unfold advancePhase
      simp only [he]
      rw [if_pos (by rw [ensureExec_currentPhase]; omega)]
    rw [hred, hid]
    refine ⟨rfl, rfl, rfl, fun hne => absurd hsnil hne, fun _ => ⟨fun hlt => ?_, fun _ => rfl⟩⟩
    exact absurd hlt (by omega)
  | some e =>
    have hne : (ensureExec w now s).phaseHistory ≠ [] := by
      intro hnil
      rw [(lastExec_eq_none_iff _).mpr hnil] at he
      exact Option.noConfusion he
    have hred : advancePhase w now s =
        { state := setLastExec (ensureExec w now s) { e with endTime := some now }
          err := some "already at final phase", saved := false } := by
      have hc2 : (setLastExec (ensureExec w now s)
          { e with endTime := some now }).currentPhase = s.currentPhase := by
        rw [← ensureExec_currentPhase w now s]
        rfl
      unfold advancePhase
      simp only [he]
      rw [if_pos (by rw [hc2]; omega)]
    rw [hred]
    have hcur2 : (setLastExec (ensureExec w now s)
        { e with endTime := some now }).currentPhase = s.currentPhase := by
      rw [← ensureExec_currentPhase w now s]
      rfl
    refine ⟨rfl, hcur2, rfl, fun hsne => ?_, fun hsnil => ?_⟩
    · rw [ensureExec_of_ne_nil w now s hsne] at he ⊢
      refine ⟨?_, e, he, lastExec_setLastExec _ _⟩
      have hpos := List.length_pos.mpr hsne
      simp only [setLastExec, List.length_append, List.length_dropLast,
        List.length_singleton]
      omega
    · -- the history was empty but an execution exists: it was created now
      constructor
      · intro hlt
        have hlist : (ensureExec w now s).phaseHistory =
            [{ phaseName := (w.phases.getD s.currentPhase default).name
               startTime := now, endTime := none, stepsComplete := [], notes := [] }] := by
          unfold ensureExec startPhaseExecution
          rw [if_pos (by simp [hsnil]), if_neg (by omega)]
          simp [hsnil]
        refine ⟨?_, _, lastExec_setLastExec _ _, rfl⟩
        simp [setLastExec, hlist]
      · intro hge
        exfalso
        have hnil2 : (ensureExec w now s).phaseHistory = [] := by
          unfold ensureExec startPhaseExecution
          rw [if_pos (by simp [hsnil]), if_pos hge]
          exact hsnil
        exact hne hnil2

/-- Witness for C10 (amended), at a state whose history is already
populated: the error is returned, nothing is saved, and the end time of
the latest execution is set. -/
theorem advancePhase_at_last_witness :
    (advancePhase wf1 5 (markStepComplete wf1 3 st1 "s1").state).err =
        some "already at final phase" ∧
      (advancePhase wf1 5 (markStepComplete wf1 3 st1 "s1").state).saved = false := by
  have h := advancePhase_at_last wf1 5 (markStepComplete wf1 3 st1 "s1").state (by decide)
  exact ⟨h.1, h.2.2.1⟩

/-- Counterexample to C10 as stated: on a fresh single-phase mission the
error path grows the phase history from zero to one entries (the
execution record is created inside `getCurrentPhaseExecution` before the
error is detected), so "the phase-history length is unchanged" fails. -/
theorem advancePhase_at_last_counterexample :
    (advancePhase wf1 5 st1).err.isSome = true ∧
      (advancePhase wf1 5 st1).state.currentPhase = st1.currentPhase ∧
      st1.phaseHistory.length = 0 ∧
      (advancePhase wf1 5 st1).state.phaseHistory.length = 1 ∧
      (advancePhase wf1 5 st1).state.phaseHistory.length ≠ st1.phaseHistory.length := by
  decide

/-- The claim C9 (amended): characterization of `parseStep` on one list
item.  The required flag is set iff the lowercased text contains
"(required)"; only the exact spellings `"(required)"` and `"(Required)"`
are then stripped; a first colon splits ID from name; otherwise the ID
is the lowercased name with spaces replaced by underscores. -/
theorem parseStep_spec (line : String) :
    (trimSpaceChars (trimPrefChars (trimPrefChars line.data "-".data) "*".data) = [] →
      parseStep line = none) ∧
    (∀ core, trimSpaceChars (trimPrefChars (trimPrefChars line.data "-".data) "*".data) = core →
      core ≠ [] →
      ∃ st, parseStep line = some st ∧
        (st.required = true ↔ hasSub "(required)".data (lowerChars core) = true) ∧
        st.completed = false ∧ st.description = st.name ∧
        (∀ p1 p2,
          splitFirst ':'
              (trimSpaceChars (stripAll "(Required)".data (stripAll "(required)".data core))) =
            some (p1, p2) →
          st.id = String.mk (trimSpaceChars p1) ∧ st.name = String.mk (trimSpaceChars p2)) ∧
        (splitFirst ':'
              (trimSpaceChars (stripAll "(Required)".data (stripAll "(required)".data core))) =
            none →
          st.name = String.mk
              (trimSpaceChars (stripAll "(Required)".data (stripAll "(required)".data core))) ∧
          st.id = String.mk (lowerChars
            ((trimSpaceChars (stripAll "(Required)".data (stripAll "(required)".data core))).map
              (fun c => if c == ' ' then '_' else c))))) := by
  constructor
  · intro hnil
    simp only [parseStep]
    rw [if_pos hnil]
  · intro core hcore hne
    simp only [parseStep]
    rw [hcore, if_neg hne]
    cases hsp : splitFirst ':'
        (trimSpaceChars (stripAll "(Required)".data (stripAll "(required)".data core))) with
    | none =>
      refine ⟨_, rfl, Iff.rfl, rfl, rfl, ?_, ?_⟩
      · intro p1 p2 hps
        exact Option.noConfusion hps
      · intro _
        exact ⟨rfl, rfl⟩
    | some p =>
      obtain ⟨p1, p2⟩ := p
      refine ⟨_, rfl, Iff.rfl, rfl, rfl, ?_, ?_⟩
      · intro q1 q2 hps
        have hinj := Option.some.inj hps
        obtain ⟨rfl, rfl⟩ : p1 = q1 ∧ p2 = q2 :=
          ⟨congrArg Prod.fst hinj, congrArg Prod.snd hinj⟩
        exact ⟨rfl, rfl⟩
      · intro hps
        exact Option.noConfusion hps

/-- Witness for C9 (amended): a colon line with the lowercase marker. -/
theorem parseStep_spec_witness :
    ∃ st, parseStep "- scan_ports: Run port scan (required)" = some st ∧
      st.required = true ∧ st.id = "scan_ports" ∧ st.name = "Run port scan" := by
  obtain ⟨st, hst, hreq, _, _, hsplit, _⟩ :=
    (parseStep_spec "- scan_ports: Run port scan (required)").2
      "scan_ports: Run port scan (required)".data (by decide) (by decide)
  obtain ⟨hid, hname⟩ := hsplit "scan_ports".data " Run port scan".data (by decide)
  exact ⟨st, hst, hreq.mpr (by decide), by rw [hid]; decide, by rw [hname]; decide⟩

/-- Counterexample to C9 as stated: the spelling `"(REQUIRED)"` sets the
required flag (the check lower-cases the line) but is not stripped from
the name (only the exact spellings `"(required)"` and `"(Required)"`
are replaced). -/
theorem parseStep_marker_counterexample :
    parseStep "- Scan Ports (REQUIRED)" =
      some { id := "scan_ports_(required)", name := "Scan Ports (REQUIRED)"
             description := "Scan Ports (REQUIRED)", required := true, completed := false } ∧
    hasSub "(required)".data (lowerChars "Scan Ports (REQUIRED)".data) = true := by
  decide

end Picoclaw.Workflow

namespace Picoclaw.Routing

/-! ### Supervised routing lemmas (claims C1, C2, C3) -/

/-- The bridge between `mkRat` literals of the embedding and the
fraction notation of the claims. -/
theorem mkRat_7_10 : (mkRat 7 10 : ℚ) = 7/10 := by
  rw [Rat.mkRat_eq_divInt, Rat.divInt_eq_div]
  norm_num

theorem mkRat_1_2 : (mkRat 1 2 : ℚ) = 1/2 := by
  rw [Rat.mkRat_eq_divInt, Rat.divInt_eq_div]
  norm_num

/-- When the task's validation rule requires validation, the supervised
route runs the worker (recording its usage) and enters the validation
path. -/
theorem executeWithSupervision_validating (rules : List ValidationRule)
    (modelList : List String) (ct : CostTracker) (now : Int) (task : TaskType)
    (w : ChatSuccess) (att1 att2 : Option ChatSuccess) (sk : String) (r : ValidationRule)
    (hrule : getValidationRule rules task = some r) (hreq : r.requiresValidation = true) :
    executeWithSupervision rules modelList ct now task (some w) att1 att2 sk =
      validateOutput modelList
        (record ct now sk w.modelName w.tierName w.tierCfg w.usage w.latency) now task
        w.content att1 att2 sk := by
  unfold executeWithSupervision routeChatRecord
  simp only [hrule, hreq, if_true]

/-- The decision table applied after a successful parse (tier_router.go
lines 556-605), stated in the claim's terms over the parsed decision. -/
theorem validateDecide_spec (modelList : List String) (task : TaskType)
    (wc sc : String) (d : ValidationDecision)
    (hd : parseValidationDecision sc = d) :
    (d.approved = true ∧ d.confidence ≥ 7/10 →
      validateDecide modelList task wc sc =
        .ok { originalTask := task, supervisorTask := .supervision, validated := true
              corrections := d.corrections, finalOutput := d.finalOutput
              supervisorModel := selectSupervisorModel modelList
              workerModel := selectWorkerModel modelList task
              validationScore := d.confidence, supervisorConfidence := d.confidence }) ∧
    (¬(d.approved = true ∧ d.confidence ≥ 7/10) → isHighStakesTask task = true →
      ∃ msg, validateDecide modelList task wc sc = .error msg) ∧
    (¬(d.approved = true ∧ d.confidence ≥ 7/10) → isHighStakesTask task = false →
      d.finalOutput ≠ "" → d.finalOutput ≠ wc →
      validateDecide modelList task wc sc =
        .ok { originalTask := task, supervisorTask := .supervision, validated := false
              corrections := d.corrections, finalOutput := d.finalOutput
              supervisorModel := selectSupervisorModel modelList
              workerModel := selectWorkerModel modelList task
              validationScore := d.confidence, supervisorConfidence := d.confidence }) ∧
    (¬(d.approved = true ∧ d.confidence ≥ 7/10) → isHighStakesTask task = false →
      (d.finalOutput = "" ∨ d.finalOutput = wc) →
      validateDecide modelList task wc sc =
        .ok (createFallbackResult modelList task wc)) := by
  unfold validateDecide
  rw [hd, mkRat_7_10]
  refine ⟨?_, ?_, ?_, ?_⟩
  · intro hcond
    rw [if_pos ⟨hcond.1, hcond.2⟩]
  · intro hncond hhigh
    rw [if_neg hncond, if_pos hhigh]
    exact ⟨_, rfl⟩
  · intro hncond hlow hne1 hne2
    rw [if_neg hncond, if_neg (by simp [hlow]), if_pos ⟨hne1, hne2⟩]
  · intro hncond hlow hdisj
    rw [if_neg hncond, if_neg (by simp [hlow]), if_neg (by
      rcases hdisj with h1 | h1
      · exact fun hcon => hcon.1 h1
      · exact fun hcon => hcon.2 h1)]

/-- The claim C1: for a supervised route of a task whose validation rule
requires validation, once the supervisor's reply (from the first or the
retried second attempt) has been parsed into a decision, the outcome
follows the four-branch decision table. -/
theorem supervisedRoute_decision_spec (rules : List ValidationRule)
    (modelList : List String) (ct : CostTracker) (now : Int) (task : TaskType)
    (w sup : ChatSuccess) (att1 att2 : Option ChatSuccess) (sk : String)
    (r : ValidationRule) (d : ValidationDecision)
    (hrule : getValidationRule rules task = some r)
    (hreq : r.requiresValidation = true)
    (hsup : att1 = some sup ∨ (att1 = none ∧ att2 = some sup))
    (hd : parseValidationDecision sup.content = d) :
    (d.approved = true ∧ d.confidence ≥ 7/10 →
      (executeWithSupervision rules modelList ct now task (some w) att1 att2 sk).1 =
        .ok { originalTask := task, supervisorTask := .supervision, validated := true
              corrections := d.corrections, finalOutput := d.finalOutput
              supervisorModel := selectSupervisorModel modelList
              workerModel := selectWorkerModel modelList task
              validationScore := d.confidence, supervisorConfidence := d.confidence }) ∧
    (¬(d.approved = true ∧ d.confidence ≥ 7/10) → isHighStakesTask task = true →
      ∃ msg, (executeWithSupervision rules modelList ct now task (some w) att1 att2 sk).1 =
        .error msg) ∧
    (¬(d.approved = true ∧ d.confidence ≥ 7/10) → isHighStakesTask task = false →
      d.finalOutput ≠ "" → d.finalOutput ≠ w.content →
      (executeWithSupervision rules modelList ct now task (some w) att1 att2 sk).1 =
        .ok { originalTask := task, supervisorTask := .supervision, validated := false
              corrections := d.corrections, finalOutput := d.finalOutput
              supervisorModel := selectSupervisorModel modelList
              workerModel := selectWorkerModel modelList task
              validationScore := d.confidence, supervisorConfidence := d.confidence }) ∧
    (¬(d.approved = true ∧ d.confidence ≥ 7/10) → isHighStakesTask task = false →
      (d.finalOutput = "" ∨ d.finalOutput = w.content) →
      (executeWithSupervision rules modelList ct now task (some w) att1 att2 sk).1 =
        .ok (createFallbackResult modelList task w.content)) := by
  have hv : (executeWithSupervision rules modelList ct now task (some w) att1 att2 sk).1 =
      validateDecide modelList task w.content sup.content := by
    rw [executeWithSupervision_validating rules modelList ct now task w att1 att2 sk r
      hrule hreq]
    rcases hsup with h1 | ⟨h1, h2⟩
    · rw [h1]
      rfl
    · rw [h1, h2]
      rfl
  rw [hv]
  exact validateDecide_spec modelList task w.content sup.content d hd

/-- Witness for C1, at the spec's scenario S4: the supervisor rejects a
`code_review` output with corrections, so the supervised route returns
the corrected text non-validated. -/
theorem supervisedRoute_decision_spec_witness :
    (executeWithSupervision defaultValidationRules modelListA ct0 7 .code_review
        (some chatW) (some chatSupS4) none "sess").1 =
      .ok { originalTask := .code_review, supervisorTask := .supervision, validated := false
            corrections := ["c1", "c2"], finalOutput := "T2"
            supervisorModel := selectSupervisorModel modelListA
            workerModel := selectWorkerModel modelListA .code_review
            validationScore := mkRat 9 10, supervisorConfidence := mkRat 9 10 } := by
  have h := supervisedRoute_decision_spec defaultValidationRules modelListA ct0 7 .code_review
    chatW chatSupS4 (some chatSupS4) none "sess"
    { taskType := .code_review, minConfidence := mkRat 75 100, requiresValidation := true
      validationTasks := [.validation] }
    decisionS4 (by decide) rfl (Or.inl rfl) (by decide)
  have hres := h.2.2.1 (by
      intro hcon
      exact absurd hcon.1 (by decide))
    (by decide) (by decide) (by decide)
  exact hres

/-- The claim C3: when both supervisor attempts fail, the supervised
route returns (with a nil error) the fallback result carrying the
worker's original content, supervisor model `"fallback"`, and score
0.5. -/
theorem supervisorUnavailable_fallback (rules : List ValidationRule)
    (modelList : List String) (ct : CostTracker) (now : Int) (task : TaskType)
    (w : ChatSuccess) (sk : String) (r : ValidationRule)
    (hrule : getValidationRule rules task = some r)
    (hreq : r.requiresValidation = true) :
    (executeWithSupervision rules modelList ct now task (some w) none none sk).1 =
      .ok { originalTask := task, supervisorTask := .supervision, validated := false
            corrections := [], finalOutput := w.content, supervisorModel := "fallback"
            workerModel := selectWorkerModel modelList task
            validationScore := 1/2, supervisorConfidence := 1/2 } := by
  rw [executeWithSupervision_validating rules modelList ct now task w none none sk r
    hrule hreq]
  show (Except.ok (createFallbackResult modelList task w.content),
    record ct now sk w.modelName w.tierName w.tierCfg w.usage w.latency).1 = _
  unfold createFallbackResult
  rw [mkRat_1_2]

/-- Witness for C3 at a concrete supervised analysis task. -/
theorem supervisorUnavailable_fallback_witness :
    (executeWithSupervision defaultValidationRules modelListA ct0 7 .analysis
        (some chatW) none none "sess").1 =
      .ok { originalTask := .analysis, supervisorTask := .supervision, validated := false
            corrections := [], finalOutput := "T1", supervisorModel := "fallback"
            workerModel := selectWorkerModel modelListA .analysis
            validationScore := 1/2, supervisorConfidence := 1/2 } :=
  supervisorUnavailable_fallback defaultValidationRules modelListA ct0 7 .analysis
    chatW "sess"
    { taskType := .analysis, minConfidence := mkRat 8 10, requiresValidation := true
      validationTasks := [.supervision] }
    (by decide) rfl

end Picoclaw.Routing

namespace Picoclaw.Routing

/-! ### Cost tracker lemmas (claim C2) -/

theorem find?_map_set {α : Type} (l : List (String × α)) (k : String) (v : α) :
    ((l.map (fun p => if p.1 = k then (k, v) else p)).find? (fun p => p.1 = k)) =
      if (l.find? (fun p => p.1 = k)).isSome then some (k, v) else none := by
  induction l with
  | nil => simp
  | cons a l ih =>
    by_cases ha : a.1 = k
    · simp [List.find?_cons, ha]
    · simp only [List.map_cons, if_neg ha]
      rw [List.find?_cons_of_neg _ (by simp [ha]), List.find?_cons_of_neg _ (by simp [ha])]
      exact ih

theorem find?_append_single {α : Type} (l : List (String × α)) (k : String) (v : α)
    (h : l.find? (fun p => p.1 = k) = none) :
    (l ++ [(k, v)]).find? (fun p => p.1 = k) = some (k, v) := by
  induction l with
  | nil => simp
  | cons a l ih =>
    obtain ⟨a1, a2⟩ := a
    by_cases hak : a1 = k
    · exfalso
      rw [List.find?_cons_of_pos _ (by simp [hak])] at h
      exact Option.noConfusion h
    · simp only [List.cons_append]
      rw [List.find?_cons_of_neg _ (by simp [hak])]
      rw [List.find?_cons_of_neg _ (by simp [hak])] at h
      exact ih h

/-- Writing a session back and reading it at the same key yields the
written value. -/
theorem getOr_setKey {α : Type} (l : List (String × α)) (k : String) (v : α) (d : α) :
    getOr (setKey l k v) k d = v := by
  unfold getOr setKey
  by_cases hf : (l.find? (fun p => p.1 = k)).isSome
  · rw [if_pos hf, find?_map_set, if_pos hf]
  · rw [if_neg hf, find?_append_single]
    exact Option.not_isSome_iff_eq_none.mp hf

/-- The cost-recording of a routed call never touches the supervision
sub-metrics of the session. -/
theorem supervisionOf_record (ct : CostTracker) (now : Int) (sk m t : String)
    (cfg : TierConfig) (u : UsageInfo) (lat : Int) :
    supervisionOf (record ct now sk m t cfg u lat) sk = supervisionOf ct sk := by
  simp only [supervisionOf, record]
  rw [getOr_setKey]
  simp only [getOr]
  cases h : ct.sessions.find? (fun p => p.1 = sk) with
  | none => rfl
  | some s => rfl

/-- The claim C2, settled against the code: on the path where the
supervisor is unreachable on both attempts and a fallback result is
returned, the supervision metrics of the session are unchanged -- in
particular the failed-validation counter does not increase by 1.  The
code defines `recordSupervisionMetrics` but no branch of the
supervision flow calls it (and the embedded cost_tracker.go has neither
the `Supervision` field nor `RecordSupervision`), while the repository's
own test asserts `Supervision.FailedValidations` becomes positive
here. -/
theorem fallback_supervision_not_recorded (rules : List ValidationRule)
    (modelList : List String) (ct : CostTracker) (now : Int) (task : TaskType)
    (w : ChatSuccess) (sk : String) (r : ValidationRule)
    (hrule : getValidationRule rules task = some r)
    (hreq : r.requiresValidation = true) :
    supervisionOf
        (executeWithSupervision rules modelList ct now task (some w) none none sk).2 sk =
      supervisionOf ct sk ∧
    (supervisionOf
        (executeWithSupervision rules modelList ct now task (some w) none none sk).2
        sk).failedValidations ≠
      (supervisionOf ct sk).failedValidations + 1 := by
  have h2 : (executeWithSupervision rules modelList ct now task (some w) none none sk).2 =
      record ct now sk w.modelName w.tierName w.tierCfg w.usage w.latency := by
    rw [executeWithSupervision_validating rules modelList ct now task w none none sk r
      hrule hreq]
    rfl
  rw [h2, supervisionOf_record]
  exact ⟨rfl, Ne.symm (Nat.succ_ne_self _)⟩

/-- Witness for C2's theorem at a concrete supervised analysis task. -/
theorem fallback_supervision_not_recorded_witness :
    supervisionOf
        (executeWithSupervision defaultValidationRules modelListA ct0 7 .analysis
          (some chatW) none none "sess").2 "sess" =
      supervisionOf ct0 "sess" ∧
    (supervisionOf
        (executeWithSupervision defaultValidationRules modelListA ct0 7 .analysis
          (some chatW) none none "sess").2 "sess").failedValidations ≠
      (supervisionOf ct0 "sess").failedValidations + 1 :=
  fallback_supervision_not_recorded defaultValidationRules modelListA ct0 7 .analysis
    chatW "sess"
    { taskType := .analysis, minConfidence := mkRat 8 10, requiresValidation := true
      validationTasks := [.supervision] }
    (by decide) rfl

end Picoclaw.Routing

namespace Picoclaw.Routing

/-! ### Task classification (claim C5) -/

/-- The claim C5: `ClassifyTask` is a pure function of the context
(determinism is immediate from the model being a function), and its
rules apply first-match-wins in the claimed order: report request, then
planning triggers, then output-size thresholds, then keyword groups over
the lowercased user text, with `analysis` as the default (also for empty
user text). -/
theorem classifyTask_spec (cfg : Option RoutingConfig) (ctx : AgentContext) :
    (ctx.reportRequested = true → classifyTask cfg ctx = .report_writing) ∧
    (ctx.reportRequested = false →
      (ctx.turnCount = 0 ∨ ctx.sessionStarted = true ∨ ctx.phaseChanged = true) →
      classifyTask cfg ctx = .planning) ∧
    (ctx.reportRequested = false → ctx.turnCount ≠ 0 → ctx.sessionStarted = false →
      ctx.phaseChanged = false → ctx.lastToolOutput.length > 10000 →
      classifyTask cfg ctx = .summary) ∧
    (ctx.reportRequested = false → ctx.turnCount ≠ 0 → ctx.sessionStarted = false →
      ctx.phaseChanged = false → ctx.lastToolOutput.length > 2000 →
      ctx.lastToolOutput.length ≤ 10000 →
      classifyTask cfg ctx = .parsing) ∧
    (∀ u, String.mk (lowerChars ctx.userMessage.data) = u →
      ctx.reportRequested = false → ctx.turnCount ≠ 0 → ctx.sessionStarted = false →
      ctx.phaseChanged = false → ctx.lastToolOutput.length ≤ 2000 →
      (goContains u "analyze" = true ∨ goContains u "examine" = true →
        classifyTask cfg ctx = .analysis) ∧
      (goContains u "analyze" = false → goContains u "examine" = false →
        (goContains u "test" = true ∨ goContains u "exploit" = true ∨
          goContains u "vulnerability" = true) →
        classifyTask cfg ctx = .exploitation) ∧
      (goContains u "analyze" = false → goContains u "examine" = false →
        goContains u "test" = false → goContains u "exploit" = false →
        goContains u "vulnerability" = false →
        (goContains u "javascript" = true ∨ goContains u "js file" = true) →
        classifyTask cfg ctx = .js_analysis) ∧
      (goContains u "analyze" = false → goContains u "examine" = false →
        goContains u "test" = false → goContains u "exploit" = false →
        goContains u "vulnerability" = false → goContains u "javascript" = false →
        goContains u "js file" = false →
        (goContains u "code" = true ∨ goContains u "review" = true) →
        classifyTask cfg ctx = .code_review) ∧
      (goContains u "analyze" = false → goContains u "examine" = false →
        goContains u "test" = false → goContains u "exploit" = false →
        goContains u "vulnerability" = false → goContains u "javascript" = false →
        goContains u "js file" = false → goContains u "code" = false →
        goContains u "review" = false →
        (goContains u "which tool" = true ∨ goContains u "what command" = true →
          classifyTask cfg ctx = .tool_selection) ∧
        (goContains u "which tool" = false → goContains u "what command" = false →
          classifyTask cfg ctx = .analysis))) := by
  unfold classifyTask
  by_cases h1 : ctx.confidenceScore = 0 <;> by_cases h2 : ctx.taskComplexity = 0 <;>
    simp only [h1, h2, if_true, if_false, ite_true, ite_false, eq_self_iff_true] <;>
    refine ⟨fun hrep => by simp [hrep], fun hrep hplan => ?_,
      fun hrep ht hs hp hlen => ?_, fun hrep ht hs hp hlen1 hlen2 => ?_,
      fun u hu hrep ht hs hp hlen => ?_⟩ <;>
    try rw [if_neg (by simp [hrep])]
  all_goals try
    first
    | rw [if_pos hplan]
    | (rw [if_neg (by rintro (h | h | h) <;> simp_all), if_pos (by omega : ctx.lastToolOutput.length > 2000), if_pos hlen])
    | (rw [if_neg (by rintro (h | h | h) <;> simp_all), if_pos hlen1, if_neg (by omega)])
  all_goals rw [if_neg (by rintro (h | h | h) <;> simp_all), if_neg (by omega)]
  all_goals rw [hu]
  all_goals exact
    ⟨fun hkw => by rw [if_pos hkw],
     fun hn1 hn2 hkw => by rw [if_neg (by simp [hn1, hn2]), if_pos hkw],
     fun hn1 hn2 hn3 hn4 hn5 hkw => by
       rw [if_neg (by simp [hn1, hn2]), if_neg (by simp [hn3, hn4, hn5]), if_pos hkw],
     fun hn1 hn2 hn3 hn4 hn5 hn6 hn7 hkw => by
       rw [if_neg (by simp [hn1, hn2]), if_neg (by simp [hn3, hn4, hn5]),
         if_neg (by simp [hn6, hn7]), if_pos hkw],
     fun hn1 hn2 hn3 hn4 hn5 hn6 hn7 hn8 hn9 =>
       ⟨fun hkw => by
         rw [if_neg (by simp [hn1, hn2]), if_neg (by simp [hn3, hn4, hn5]),
           if_neg (by simp [hn6, hn7]), if_neg (by simp [hn8, hn9]), if_pos hkw],
        fun hn10 hn11 => by
         rw [if_neg (by simp [hn1, hn2]), if_neg (by simp [hn3, hn4, hn5]),
           if_neg (by simp [hn6, hn7]), if_neg (by simp [hn8, hn9]),
           if_neg (by simp [hn10, hn11])]⟩⟩

end Picoclaw.Routing

namespace Picoclaw.Routing

/-- Witness for C5: empty user text mid-session classifies as the
default `analysis`. -/
theorem classifyTask_spec_witness : classifyTask none ctxEmpty = .analysis := by
  have h := (classifyTask_spec none ctxEmpty).2.2.2.2 "" (by decide) rfl (by decide)
    rfl rfl (by decide)
  exact (h.2.2.2.2 (by decide) (by decide) (by decide) (by decide) (by decide)
    (by decide) (by decide) (by decide) (by decide)).2 (by decide) (by decide)

end Picoclaw.Routing

namespace Picoclaw.Routing

/-! ### Supervisor decision parsing (claim C4) -/

theorem mkRat_6_10 : (mkRat 6 10 : ℚ) = 6/10 := by
  rw [Rat.mkRat_eq_divInt, Rat.divInt_eq_div]
  norm_num

theorem mkRat_8_10 : (mkRat 8 10 : ℚ) = 8/10 := by
  rw [Rat.mkRat_eq_divInt, Rat.divInt_eq_div]
  norm_num

/-- The claim C4 (amended): `parseValidationDecision` extracts the
substring from the first brace to the last brace and JSON-parses it; no
brace pair (or an inverted one) yields a soft-approve with confidence
0.7 carrying the supervisor's own content; an unmarshalling failure
yields a soft-approve with confidence 0.6, the fixed corrections note,
and the supervisor's content; a parsed confidence outside [0,1] is
replaced by the constant 0.8 (not clamped); an empty parsed final
output is replaced by the supervisor's content. -/
theorem parseValidationDecision_spec (content : String) :
    ((firstIdx lbrace content.data).isNone = true ∨
        (lastIdx rbrace content.data).isNone = true →
      parseValidationDecision content =
        { approved := true, confidence := 7/10, corrections := [], finalOutput := content }) ∧
    (∀ i j, firstIdx lbrace content.data = some i → lastIdx rbrace content.data = some j →
      (j ≤ i →
        parseValidationDecision content =
          { approved := true, confidence := 7/10, corrections := []
            finalOutput := content }) ∧
      (i < j →
        (unmarshalDecision ((content.data.drop i).take (j + 1 - i)) = none →
          parseValidationDecision content =
            { approved := true, confidence := 6/10
              corrections := ["Failed to parse validation response"]
              finalOutput := content }) ∧
        (∀ d, unmarshalDecision ((content.data.drop i).take (j + 1 - i)) = some d →
          ((d.confidence < 0 ∨ d.confidence > 1) →
            parseValidationDecision content =
              (if d.finalOutput = "" then
                { d with confidence := 8/10, finalOutput := content }
               else { d with confidence := 8/10 })) ∧
          (0 ≤ d.confidence → d.confidence ≤ 1 →
            parseValidationDecision content =
              (if d.finalOutput = "" then { d with finalOutput := content } else d))))) := by
  simp only [parseValidationDecision]
  constructor
  · intro hnone
    rcases hnone with hn | hn
    · rw [Option.isNone_iff_eq_none] at hn
      rw [hn, mkRat_7_10]
    · rw [Option.isNone_iff_eq_none] at hn
      rw [hn, mkRat_7_10]
      cases firstIdx lbrace content.data <;> rfl
  · intro i j hi hj
    rw [hi, hj]
    dsimp only
    constructor
    · intro hle
      rw [if_pos hle, mkRat_7_10]
    · intro hlt
      rw [if_neg (by omega)]
      constructor
      · intro hnone
        rw [hnone, mkRat_6_10]
      · intro d hd
        rw [hd]
        dsimp only
        constructor
        · intro hout
          rw [if_pos hout, mkRat_8_10]
        · intro h0 h1
          have hcond : ¬(d.confidence < 0 ∨ d.confidence > 1) := by
            rintro (hc | hc)
            · exact absurd h0 (not_le.mpr hc)
            · exact absurd h1 (not_le.mpr hc)
          rw [if_neg hcond]

/-- Witness for C4 (amended): a well-formed reply with confidence 0.95
and non-empty final output parses through unchanged. -/
theorem parseValidationDecision_spec_witness :
    parseValidationDecision supContent095 = decision095 := by
  have h := ((parseValidationDecision_spec supContent095).2 0 70 (by decide)
    (by decide)).2 (by decide)
  have h2 := (h.2 decision095 (by decide)).2 (by decide) (by decide)
  rw [h2]
  decide

/-- Counterexample to C4 as stated: at a reply whose confidence field is
2, the parsed confidence is replaced by 0.8, whereas clamping 2 to
[0, 1] yields 1. -/
theorem parseValidationDecision_clamp_counterexample :
    unmarshalDecision ("\x7b\"approved\":true,\"confidence\":2,\"corrections\":[],\"final_output\":\"y\"\x7d" : String).data =
      some { approved := true, confidence := 2, corrections := [], finalOutput := "y" } ∧
    (parseValidationDecision supContentConf2).confidence = mkRat 8 10 ∧
    min (max (2 : ℚ) 0) 1 = 1 ∧
    (mkRat 8 10 : ℚ) ≠ 1 ∧ (mkRat 8 10 : ℚ) ≠ 2 := by
  refine ⟨by decide, by decide, ?_, by decide, by decide⟩
  norm_num

end Picoclaw.Routing

namespace Picoclaw

/-! ### Prefix and substring lemmas -/

/-- Boolean prefix test as an existential. -/
theorem isPrefChars_iff (t s : List Char) :
    isPrefChars t s = true ↔ ∃ u, s = t ++ u := by
  induction t generalizing s with
  | nil => simp [isPrefChars]
  | cons p ps ih =>
    cases s with
    | nil => simp [isPrefChars]
    | cons c cs =>
      simp only [isPrefChars, Bool.and_eq_true, beq_iff_eq, ih, List.cons_append]
      constructor
      · rintro ⟨hpc, u, rfl⟩
        exact ⟨u, by rw [hpc]⟩
      · rintro ⟨u, h⟩
        injection h with h1 h2
        exact ⟨h1.symm, u, h2⟩

/-- Substring test as an existential over drop positions. -/
theorem hasSub_iff (pat s : List Char) :
    hasSub pat s = true ↔ ∃ n, isPrefChars pat (s.drop n) = true := by
  induction s with
  | nil =>
    constructor
    · intro h; exact ⟨0, h⟩
    · rintro ⟨n, h⟩
      rw [List.drop_nil] at h
      simpa [hasSub] using h
  | cons c cs ih =>
    simp only [hasSub, Bool.or_eq_true, ih]
    constructor
    · rintro (h | ⟨n, h⟩)
      · exact ⟨0, h⟩
      · exact ⟨n + 1, by simpa [List.drop_succ_cons] using h⟩
    · rintro ⟨n, h⟩
      cases n with
      | zero => exact Or.inl h
      | succ n => exact Or.inr ⟨n, by simpa [List.drop_succ_cons] using h⟩

/-- A substring-free string has no prefix match at any position. -/
theorem isPrefChars_eq_false_of_not_sub (pat s : List Char) (h : hasSub pat s = false)
    (n : Nat) : isPrefChars pat (s.drop n) = false := by
  cases hx : isPrefChars pat (s.drop n) with
  | false => rfl
  | true =>
    rw [(hasSub_iff pat s).2 ⟨n, hx⟩] at h
    cases h

/-- A list is a Boolean prefix of itself followed by anything. -/
theorem isPrefChars_append_self (t u : List Char) : isPrefChars t (t ++ u) = true := by
  induction t with
  | nil => rfl
  | cons p ps ih => simp [isPrefChars, ih]

/-- Take of an append within the first part. -/
theorem take_append_of_le (a b : List Char) (k : Nat) (hk : k ≤ a.length) :
    (a ++ b).take k = a.take k := by
  rw [List.take_append_eq_append_take, Nat.sub_eq_zero_of_le hk]
  simp

/-- Drop of an append within the first part. -/
theorem drop_append_of_le (a b : List Char) (k : Nat) (hk : k ≤ a.length) :
    (a ++ b).drop k = a.drop k ++ b := by
  rw [List.drop_append_eq_append_drop, Nat.sub_eq_zero_of_le hk, List.drop_zero]

end Picoclaw

namespace Picoclaw.Json

open Picoclaw

/-! ### Digit and number lemmas -/

/-- Digit characters are decimal digits. -/
theorem digitChar_isDigit : ∀ n < 10, (digitChar n).isDigit = true := by decide

/-- All characters produced by `natCharsF` are decimal digits. -/
theorem natCharsF_digits : ∀ f n, ∀ c ∈ natCharsF f n, c.isDigit = true := by
  intro f
  induction f with
  | zero => intro n c h; cases h
  | succ f ih =>
    intro n c h
    rw [natCharsF] at h
    split at h
    · next hn =>
      rw [List.mem_singleton] at h
      subst h
      exact digitChar_isDigit n hn
    · next hn =>
      rcases List.mem_append.mp h with h1 | h1
      · exact ih _ c h1
      · rw [List.mem_singleton] at h1
        subst h1
        exact digitChar_isDigit _ (Nat.mod_lt _ (by norm_num))

/-- `natCharsF` with positive fuel is nonempty. -/
theorem natCharsF_ne_nil (f n : Nat) (hf : 0 < f) : natCharsF f n ≠ [] := by
  cases f with
  | zero => exact absurd hf (by omega)
  | succ f =>
    rw [natCharsF]
    split
    · simp
    · simp

/-- The digit fold starting from an arbitrary accumulator. -/
theorem digitsVal_foldl (ds : List Char) : ∀ a : Nat,
    ds.foldl (fun acc c => acc * 10 + (c.toNat - 48)) a =
      a * 10 ^ ds.length + digitsVal ds := by
  induction ds with
  | nil => intro a; simp [digitsVal]
  | cons c cs ih =>
    intro a
    simp only [List.foldl_cons, digitsVal, List.length_cons]
    rw [ih, ih]
    ring

/-- Digit value of an append. -/
theorem digitsVal_append (xs ys : List Char) :
    digitsVal (xs ++ ys) = digitsVal xs * 10 ^ ys.length + digitsVal ys := by
  show (xs ++ ys).foldl (fun acc c => acc * 10 + (c.toNat - 48)) 0 = _
  rw [List.foldl_append, digitsVal_foldl]
  rfl

/-- Leading zeros do not change the digit value. -/
theorem digitsVal_replicate_zero (j : Nat) (ys : List Char) :
    digitsVal (List.replicate j '0' ++ ys) = digitsVal ys := by
  rw [digitsVal_append]
  have hz : digitsVal (List.replicate j '0') = 0 := by
    induction j with
    | zero => rfl
    | succ j ih =>
      have h1 : List.replicate (j + 1) '0' = ['0'] ++ List.replicate j '0' := by
        rw [List.replicate_succ]
        rfl
      rw [h1, digitsVal_append, ih]
      have h0 : digitsVal ['0'] = 0 := by decide
      rw [h0]
      simp
  rw [hz]
  simp

/-- `natCharsF` computes the decimal digits of its argument. -/
theorem digitsVal_natCharsF : ∀ f n, n < f → digitsVal (natCharsF f n) = n := by
  intro f
  induction f with
  | zero => intro n h; omega
  | succ f ih =>
    intro n h
    rw [natCharsF]
    split
    · next hn =>
      have hd : ∀ m < 10, digitsVal [digitChar m] = m := by decide
      exact hd n hn
    · next hn =>
      rw [digitsVal_append]
      have h1 : digitsVal (natCharsF f (n / 10)) = n / 10 := ih (n / 10) (by omega)
      have hd : ∀ m < 10, digitsVal [digitChar m] = m := by decide
      rw [h1, hd (n % 10) (Nat.mod_lt _ (by norm_num))]
      simp only [List.length_singleton, pow_one]
      omega

/-- `natChars` computes the decimal digits of its argument. -/
theorem digitsVal_natChars (n : Nat) : digitsVal (natChars n) = n :=
  digitsVal_natCharsF (n + 1) n (Nat.lt_succ_self n)

/-- `natChars` is nonempty. -/
theorem natChars_ne_nil (n : Nat) : natChars n ≠ [] :=
  natCharsF_ne_nil (n + 1) n (Nat.succ_pos n)

/-- Padding preserves digit-ness. -/
theorem padDigits_digits (ds : List Char) (k : Nat) (h : ∀ c ∈ ds, c.isDigit = true) :
    ∀ c ∈ padDigits ds k, c.isDigit = true := by
  intro c hc
  rw [padDigits] at hc
  rcases List.mem_append.mp hc with h1 | h1
  · rw [List.eq_of_mem_replicate h1]
    decide
  · exact h c h1

/-- The padded digit list has length at least `k + 1`. -/
theorem padDigits_length (ds : List Char) (k : Nat) : k + 1 ≤ (padDigits ds k).length := by
  rw [padDigits]
  simp only [List.length_append, List.length_replicate]
  omega

/-- Padding does not change the digit value. -/
theorem digitsVal_padDigits (ds : List Char) (k : Nat) :
    digitsVal (padDigits ds k) = digitsVal ds :=
  digitsVal_replicate_zero _ ds

end Picoclaw.Json

namespace Picoclaw.Json

open Picoclaw

/-! ### Character classification helpers -/

/-- A digit is not beq-equal to any non-digit character. -/
theorem digit_beq_right (c d : Char) (hd : d.isDigit = false) (h : c.isDigit = true) :
    (c == d) = false := by
  cases hc : c == d with
  | false => rfl
  | true =>
    have he := eq_of_beq hc
    subst he
    rw [h] at hd
    cases hd

/-- A non-digit character is not beq-equal to any digit. -/
theorem digit_beq_left (d c : Char) (hd : d.isDigit = false) (h : c.isDigit = true) :
    (d == c) = false := by
  cases hc : d == c with
  | false => rfl
  | true =>
    have he := eq_of_beq hc
    subst he
    rw [h] at hd
    cases hd

/-- Digits are not JSON whitespace. -/
theorem wsChar_of_digit (c : Char) (h : c.isDigit = true) : wsChar c = false := by
  rw [wsChar]
  rw [digit_beq_right c ' ' (by decide) h, digit_beq_right c '\t' (by decide) h,
    digit_beq_right c '\n' (by decide) h, digit_beq_right c '\r' (by decide) h]
  rfl

/-- Take-while / drop-while across an append whose first part satisfies
the predicate everywhere and whose second part opens with a failure. -/
theorem takeWhile_dropWhile_append (p : Char → Bool) (xs ys : List Char)
    (hxs : ∀ c ∈ xs, p c = true) (hys : ∀ c, ys.head? = some c → p c = false) :
    (xs ++ ys).takeWhile p = xs ∧ (xs ++ ys).dropWhile p = ys := by
  induction xs with
  | nil =>
    simp only [List.nil_append]
    cases ys with
    | nil => simp
    | cons c cs =>
      have hc := hys c rfl
      simp [List.takeWhile_cons, List.dropWhile_cons, hc]
  | cons x xs ih =>
    have hx := hxs x (List.mem_cons_self _ _)
    have ih2 := ih (fun c hc => hxs c (List.mem_cons_of_mem _ hc))
    simp only [List.cons_append, List.takeWhile_cons, List.dropWhile_cons, hx]
    simp [ih2.1, ih2.2]

end Picoclaw.Json

namespace Picoclaw.Json

open Picoclaw

/-! ### Number parsing round trip -/

/-- Parsing an all-digit block followed by a safe residue, with and
without a leading minus sign. -/
theorem parseNum_flat (pds rest : List Char)
    (hdig : ∀ c ∈ pds, c.isDigit = true) (hne : pds ≠ [])
    (hrest : ∀ c, rest.head? = some c → c.isDigit = false ∧ (c == '.') = false) :
    parseNum (pds ++ rest) = some (.num (digitsVal pds : Int) 0, rest) ∧
    parseNum ('-' :: (pds ++ rest)) = some (.num (-(digitsVal pds : Int)) 0, rest) := by
  obtain ⟨d, ds', rfl⟩ := List.exists_cons_of_ne_nil hne
  have hd : d.isDigit = true := hdig d (List.mem_cons_self _ _)
  have htd := takeWhile_dropWhile_append Char.isDigit (d :: ds') rest hdig
    (fun c hc => (hrest c hc).1)
  constructor
  · simp only [parseNum, List.cons_append]
    rw [digit_beq_right d '-' (by decide) hd]
    simp only [Bool.false_eq_true, if_false]
    rw [← List.cons_append, htd.1, htd.2]
    rw [if_neg (by simp : ¬(d :: ds' = []))]
    cases rest with
    | nil => simp
    | cons r rs =>
      have hr := hrest r rfl
      simp [hr.2]
  · simp only [parseNum, List.cons_append]
    rw [if_pos (show ('-' == '-') = true from rfl)]
    rw [← List.cons_append, htd.1, htd.2]
    rw [if_neg (by simp : ¬(d :: ds' = []))]
    cases rest with
    | nil => simp
    | cons r rs =>
      have hr := hrest r rfl
      simp [hr.2]

/-- Parsing a dotted decimal block followed by a safe residue, with and
without a leading minus sign. -/
theorem parseNum_dotted (ip fp rest : List Char)
    (hip : ∀ c ∈ ip, c.isDigit = true) (hipne : ip ≠ [])
    (hfp : ∀ c ∈ fp, c.isDigit = true) (hfpne : fp ≠ [])
    (hrest : ∀ c, rest.head? = some c → c.isDigit = false ∧ (c == '.') = false) :
    parseNum ((ip ++ '.' :: fp) ++ rest) =
      some (.num ((digitsVal ip * 10 ^ fp.length + digitsVal fp : Nat) : Int) fp.length, rest) ∧
    parseNum ('-' :: ((ip ++ '.' :: fp) ++ rest)) =
      some (.num (-((digitsVal ip * 10 ^ fp.length + digitsVal fp : Nat) : Int)) fp.length, rest) := by
  obtain ⟨d, ds', rfl⟩ := List.exists_cons_of_ne_nil hipne
  have hd : d.isDigit = true := hip d (List.mem_cons_self _ _)
  have hta := takeWhile_dropWhile_append Char.isDigit (d :: ds') ('.' :: (fp ++ rest)) hip
    (fun c hc => by
      simp only [List.head?_cons, Option.some.injEq] at hc
      subst hc
      decide)
  have htf := takeWhile_dropWhile_append Char.isDigit fp rest hfp
    (fun c hc => (hrest c hc).1)
  have hassoc : ((d :: ds') ++ '.' :: fp) ++ rest = (d :: ds') ++ '.' :: (fp ++ rest) := by
    rw [List.append_assoc]
    rfl
  rw [hassoc]
  constructor
  · simp only [parseNum, List.cons_append]
    rw [digit_beq_right d '-' (by decide) hd]
    simp only [Bool.false_eq_true, if_false]
    rw [← List.cons_append, hta.1, hta.2]
    rw [if_neg (by simp : ¬(d :: ds' = []))]
    dsimp only
    rw [if_pos (show ('.' == '.') = true from rfl)]
    rw [htf.1, htf.2]
    rw [if_neg hfpne]
  · simp only [parseNum, List.cons_append]
    rw [if_pos (show ('-' == '-') = true from rfl)]
    rw [← List.cons_append, hta.1, hta.2]
    rw [if_neg (by simp : ¬(d :: ds' = []))]
    dsimp only
    rw [if_pos (show ('.' == '.') = true from rfl)]
    rw [htf.1, htf.2]
    rw [if_neg hfpne]
    rfl

end Picoclaw.Json

namespace Picoclaw.Json

open Picoclaw

/-- Decomposition of `serNum` into sign and core. -/
theorem serNum_eq (m : Int) (k : Nat) :
    serNum m k = (if m < 0 then ['-'] else []) ++
      (if k = 0 then padDigits (natChars m.natAbs) k
       else (padDigits (natChars m.natAbs) k).take ((padDigits (natChars m.natAbs) k).length - k) ++
         '.' :: (padDigits (natChars m.natAbs) k).drop ((padDigits (natChars m.natAbs) k).length - k)) := by
  simp only [serNum]
  by_cases hm : m < 0
  · rw [if_pos hm, if_pos hm]
    rfl
  · rw [if_neg hm, if_neg hm]
    rfl

/-- Round trip of the number serializer through `parseNum`. -/
theorem parseNum_serNum (m : Int) (k : Nat) (rest : List Char)
    (hrest : ∀ c, rest.head? = some c → c.isDigit = false ∧ (c == '.') = false) :
    parseNum (serNum m k ++ rest) = some (.num m k, rest) := by
  have hdig : ∀ c ∈ padDigits (natChars m.natAbs) k, c.isDigit = true :=
    padDigits_digits _ _ (natCharsF_digits _ _)
  have hL : k + 1 ≤ (padDigits (natChars m.natAbs) k).length := padDigits_length _ _
  have hval : digitsVal (padDigits (natChars m.natAbs) k) = m.natAbs := by
    rw [digitsVal_padDigits, digitsVal_natChars]
  have hne : padDigits (natChars m.natAbs) k ≠ [] := by
    intro h
    rw [h] at hL
    simp at hL
  rw [serNum_eq]
  by_cases hk : k = 0
  · subst hk
    rw [if_pos rfl]
    by_cases hm : m < 0
    · rw [if_pos hm, List.append_assoc, List.singleton_append]
      rw [(parseNum_flat _ rest hdig hne hrest).2, hval]
      have hm2 : (-(m.natAbs : Int)) = m := by omega
      rw [hm2]
    · rw [if_neg hm, List.nil_append]
      rw [(parseNum_flat _ rest hdig hne hrest).1, hval]
      have hm2 : ((m.natAbs : Int)) = m := by omega
      rw [hm2]
  · rw [if_neg hk]
    have hipd : ∀ c ∈ (padDigits (natChars m.natAbs) k).take
        ((padDigits (natChars m.natAbs) k).length - k), c.isDigit = true :=
      fun c hc => hdig c (List.take_subset _ _ hc)
    have hfpd : ∀ c ∈ (padDigits (natChars m.natAbs) k).drop
        ((padDigits (natChars m.natAbs) k).length - k), c.isDigit = true :=
      fun c hc => hdig c (List.drop_subset _ _ hc)
    have hiplen : ((padDigits (natChars m.natAbs) k).take
        ((padDigits (natChars m.natAbs) k).length - k)).length =
        (padDigits (natChars m.natAbs) k).length - k := by
      rw [List.length_take]
      omega
    have hfplen : ((padDigits (natChars m.natAbs) k).drop
        ((padDigits (natChars m.natAbs) k).length - k)).length = k := by
      rw [List.length_drop]
      omega
    have hipne : (padDigits (natChars m.natAbs) k).take
        ((padDigits (natChars m.natAbs) k).length - k) ≠ [] := by
      intro h
      rw [h] at hiplen
      simp at hiplen
      omega
    have hfpne : (padDigits (natChars m.natAbs) k).drop
        ((padDigits (natChars m.natAbs) k).length - k) ≠ [] := by
      intro h
      rw [h] at hfplen
      simp at hfplen
      omega
    have hsum : digitsVal ((padDigits (natChars m.natAbs) k).take
          ((padDigits (natChars m.natAbs) k).length - k)) * 10 ^ k +
        digitsVal ((padDigits (natChars m.natAbs) k).drop
          ((padDigits (natChars m.natAbs) k).length - k)) = m.natAbs := by
      have hap := digitsVal_append
        ((padDigits (natChars m.natAbs) k).take ((padDigits (natChars m.natAbs) k).length - k))
        ((padDigits (natChars m.natAbs) k).drop ((padDigits (natChars m.natAbs) k).length - k))
      rw [List.take_append_drop, hfplen] at hap
      rw [← hap]
      exact hval
    by_cases hm : m < 0
    · rw [if_pos hm, List.append_assoc, List.singleton_append]
      rw [(parseNum_dotted _ _ rest hipd hipne hfpd hfpne hrest).2, hfplen, hsum]
      have hm2 : (-(m.natAbs : Int)) = m := by omega
      rw [hm2]
    · rw [if_neg hm, List.nil_append]
      rw [(parseNum_dotted _ _ rest hipd hipne hfpd hfpne hrest).1, hfplen, hsum]
      have hm2 : ((m.natAbs : Int)) = m := by omega
      rw [hm2]

end Picoclaw.Json

namespace Picoclaw.Json

open Picoclaw

/-! ### String parsing round trip and serializer head facts -/

/-- Skipping whitespace over a non-whitespace head is the identity. -/
theorem skipWs_cons (c : Char) (l : List Char) (h : wsChar c = false) :
    skipWs (c :: l) = c :: l := by
  simp [skipWs, List.dropWhile_cons, h]

/-- A prefix test fails on a head mismatch. -/
theorem isPrefChars_false_of_head (p : Char) (ps : List Char) (c : Char) (cs : List Char)
    (h : (p == c) = false) : isPrefChars (p :: ps) (c :: cs) = false := by
  simp [isPrefChars, h]

/-- `parseStrBodyF` undoes `escapeChars` given enough fuel. -/
theorem parseStrBodyF_escape : ∀ (cs : List Char) (fuel : Nat) (rest : List Char),
    (escapeChars cs).length + 1 ≤ fuel →
    parseStrBodyF fuel (escapeChars cs ++ '"' :: rest) = some (cs, rest) := by
  intro cs
  induction cs with
  | nil =>
    intro fuel rest hf
    cases fuel with
    | zero => exact absurd hf (by simp [escapeChars])
    | succ f =>
      simp [parseStrBodyF, escapeChars]
  | cons c cs ih =>
    intro fuel rest hf
    by_cases hc : c == '"' ∨ c == '\\'
    · have he : escapeChars (c :: cs) = '\\' :: c :: escapeChars cs := by
        rw [escapeChars, if_pos hc]
      rw [he] at hf ⊢
      cases fuel with
      | zero => exact absurd hf (by simp)
      | succ f =>
        simp only [List.cons_append]
        rw [parseStrBodyF]
        rw [if_neg (by decide : ¬(('\\' : Char) == '"') = true)]
        rw [if_pos (by decide : (('\\' : Char) == '\\') = true)]
        have hdec : escDecode (c :: (escapeChars cs ++ '"' :: rest)) = some (c, 1) := by
          rcases hc with h | h
          · rw [eq_of_beq h]
            rfl
          · rw [eq_of_beq h]
            rfl
        rw [hdec]
        dsimp only
        rw [List.drop_succ_cons, List.drop_zero]
        rw [ih f rest (by simp at hf ⊢; omega)]
    · have he : escapeChars (c :: cs) = c :: escapeChars cs := by
        rw [escapeChars, if_neg hc]
      push_neg at hc
      have hq : (c == '"') = false := by
        cases h : c == '"' with
        | false => rfl
        | true => exact absurd h hc.1
      have hb : (c == '\\') = false := by
        cases h : c == '\\' with
        | false => rfl
        | true => exact absurd h hc.2
      rw [he] at hf ⊢
      cases fuel with
      | zero => exact absurd hf (by simp)
      | succ f =>
        simp only [List.cons_append]
        rw [parseStrBodyF]
        rw [hq, hb]
        simp only [Bool.false_eq_true, if_false]
        rw [ih f rest (by simp at hf ⊢; omega)]
  
/-- `parseStrBody` undoes `escapeChars`. -/
theorem parseStrBody_escape (cs rest : List Char) :
    parseStrBody (escapeChars cs ++ '"' :: rest) = some (cs, rest) := by
  rw [parseStrBody]
  apply parseStrBodyF_escape
  simp

/-- The number serializer starts with a sign or a digit. -/
theorem serNum_head (m : Int) (k : Nat) :
    ∃ h t, serNum m k = h :: t ∧ (h = '-' ∨ h.isDigit = true) := by
  have hdig : ∀ c ∈ padDigits (natChars m.natAbs) k, c.isDigit = true :=
    padDigits_digits _ _ (natCharsF_digits _ _)
  have hL : k + 1 ≤ (padDigits (natChars m.natAbs) k).length := padDigits_length _ _
  rw [serNum_eq]
  by_cases hm : m < 0
  · rw [if_pos hm]
    exact ⟨'-', (if k = 0 then padDigits (natChars m.natAbs) k
       else (padDigits (natChars m.natAbs) k).take ((padDigits (natChars m.natAbs) k).length - k) ++
         '.' :: (padDigits (natChars m.natAbs) k).drop ((padDigits (natChars m.natAbs) k).length - k)),
      rfl, Or.inl rfl⟩
  · rw [if_neg hm, List.nil_append]
    by_cases hk : k = 0
    · rw [if_pos hk]
      have hne : padDigits (natChars m.natAbs) k ≠ [] := by
        intro h
        rw [h] at hL
        simp at hL
      obtain ⟨d, t, hd⟩ := List.exists_cons_of_ne_nil hne
      exact ⟨d, t, hd, Or.inr (hdig d (by rw [hd]; exact List.mem_cons_self _ _))⟩
    · rw [if_neg hk]
      have htne : (padDigits (natChars m.natAbs) k).take
          ((padDigits (natChars m.natAbs) k).length - k) ≠ [] := by
        intro h
        have := congrArg List.length h
        rw [List.length_take] at this
        simp at this
        omega
      obtain ⟨d, t, hd⟩ := List.exists_cons_of_ne_nil htne
      refine ⟨d, t ++ '.' :: (padDigits (natChars m.natAbs) k).drop
        ((padDigits (natChars m.natAbs) k).length - k), ?_, Or.inr ?_⟩
      · rw [hd]
        rfl
      · exact hdig d (List.take_subset _ _ (by rw [hd]; exact List.mem_cons_self _ _))

/-- The serialization of any value starts with a character that is not
whitespace and not a closing bracket. -/
theorem serJson_head (v : Json) :
    ∃ h t, serJson v = h :: t ∧ wsChar h = false ∧ (h == ']') = false := by
  cases v with
  | null => exact ⟨'n', _, rfl, by decide, by decide⟩
  | bool b =>
    cases b with
    | true => exact ⟨'t', _, rfl, by decide, by decide⟩
    | false => exact ⟨'f', _, rfl, by decide, by decide⟩
  | num m k =>
    obtain ⟨h, t, hht, hc⟩ := serNum_head m k
    refine ⟨h, t, hht, ?_, ?_⟩
    · rcases hc with rfl | hd
      · decide
      · exact wsChar_of_digit _ hd
    · rcases hc with rfl | hd
      · decide
      · exact digit_beq_right _ _ (by decide) hd
  | str s => exact ⟨'"', _, rfl, by decide, by decide⟩
  | arr es => exact ⟨'[', _, rfl, by decide, by decide⟩
  | obj fs => exact ⟨lbrace, _, rfl, by decide, by decide⟩

/-- Serializations are nonempty. -/
theorem serJson_length_pos (v : Json) : 1 ≤ (serJson v).length := by
  obtain ⟨h, t, hht, _⟩ := serJson_head v
  rw [hht]
  simp

/-- Length of a serialized string literal. -/
theorem serStr_length (s : String) :
    (serStr s).length = (escapeChars s.data).length + 2 := by
  simp [serStr]

/-- A nonempty member list serializes with a leading quote. -/
theorem serMembers_head (f : String × Json) (fs : List (String × Json)) :
    ∃ M, serMembers (f :: fs) = '"' :: M := by
  cases fs with
  | nil =>
    exact ⟨(escapeChars f.1.data ++ ['"']) ++ ':' :: serJson f.2, rfl⟩
  | cons g gs =>
    exact ⟨((escapeChars f.1.data ++ ['"']) ++ ':' :: serJson f.2) ++
      ',' :: serMembers (g :: gs), rfl⟩

end Picoclaw.Json

namespace Picoclaw.Json

open Picoclaw

/-- Parsing inverts serialization: one value, a member list, or an
element list, given fuel above the serialized length. -/
theorem parse_ser_round : ∀ fuel : Nat,
    (∀ (v : Json) (rest : List Char),
      (serJson v).length < fuel →
      (∀ c, rest.head? = some c → c.isDigit = false ∧ (c == '.') = false) →
      parseVal fuel (serJson v ++ rest) = some (v, rest)) ∧
    (∀ (g : String × Json) (fs : List (String × Json)) (acc : List (String × Json))
        (rest : List Char),
      (serMembers (g :: fs)).length + 1 ≤ fuel →
      parseMembers fuel (serMembers (g :: fs) ++ rbrace :: rest) acc =
        some (.obj (acc ++ g :: fs), rest)) ∧
    (∀ (e : Json) (es : List Json) (acc : List Json) (rest : List Char),
      (serElems (e :: es)).length + 2 ≤ fuel →
      parseElems fuel (serElems (e :: es) ++ ']' :: rest) acc =
        some (.arr (acc ++ e :: es), rest)) := by
  intro fuel
  induction fuel using Nat.strong_induction_on with
  | _ fuel ih =>
  refine ⟨?_, ?_, ?_⟩
  · intro v rest hlen hrest
    cases fuel with
    | zero => exact absurd hlen (by omega)
    | succ f =>
      obtain ⟨ihv, ihm, ihe⟩ := ih f (Nat.lt_succ_self f)
      cases v with
      | null => rfl
      | bool b =>
        cases b with
        | true => rfl
        | false => rfl
      | str s =>
        have e1 : serJson (.str s) ++ rest = '"' :: (escapeChars s.data ++ '"' :: rest) := by
          show ('"' :: (escapeChars s.data ++ ['"'])) ++ rest = _
          rw [List.cons_append, List.append_assoc]
          rfl
        rw [e1]
        simp only [parseVal]
        rw [skipWs_cons _ _ (by decide)]
        dsimp only
        rw [if_pos (by decide : (('"' : Char) == '"') = true)]
        rw [parseStrBody_escape]
      | num m k =>
        obtain ⟨h, t, hht, hc⟩ := serNum_head m k
        have hws : wsChar h = false := by
          rcases hc with rfl | hd
          · decide
          · exact wsChar_of_digit _ hd
        have hq : (h == '"') = false := by
          rcases hc with rfl | hd
          · decide
          · exact digit_beq_right _ _ (by decide) hd
        have hlb : (h == lbrace) = false := by
          rcases hc with rfl | hd
          · decide
          · exact digit_beq_right _ _ (by decide) hd
        have hbk : (h == '[') = false := by
          rcases hc with rfl | hd
          · decide
          · exact digit_beq_right _ _ (by decide) hd
        have hT : (('t' : Char) == h) = false := by
          rcases hc with rfl | hd
          · decide
          · exact digit_beq_left _ _ (by decide) hd
        have hF : (('f' : Char) == h) = false := by
          rcases hc with rfl | hd
          · decide
          · exact digit_beq_left _ _ (by decide) hd
        have hN : (('n' : Char) == h) = false := by
          rcases hc with rfl | hd
          · decide
          · exact digit_beq_left _ _ (by decide) hd
        have e1 : serJson (.num m k) = h :: t := hht
        rw [e1, List.cons_append]
        simp only [parseVal]
        rw [skipWs_cons _ _ hws]
        dsimp only
        rw [hq]
        simp only [Bool.false_eq_true, if_false]
        rw [hlb]
        simp only [Bool.false_eq_true, if_false]
        rw [hbk]
        simp only [Bool.false_eq_true, if_false]
        rw [isPrefChars_false_of_head 't' ['r', 'u', 'e'] _ _ hT]
        simp only [Bool.false_eq_true, if_false]
        rw [isPrefChars_false_of_head 'f' ['a', 'l', 's', 'e'] _ _ hF]
        simp only [Bool.false_eq_true, if_false]
        rw [isPrefChars_false_of_head 'n' ['u', 'l', 'l'] _ _ hN]
        simp only [Bool.false_eq_true, if_false]
        rw [← List.cons_append, ← hht]
        exact parseNum_serNum m k rest hrest
      | obj fs =>
        cases fs with
        | nil => rfl
        | cons g fs' =>
          obtain ⟨M, hM⟩ := serMembers_head g fs'
          have hlen2 : (serMembers (g :: fs')).length + 1 ≤ f := by
            have e0 : serJson (.obj (g :: fs')) =
                lbrace :: (serMembers (g :: fs') ++ [rbrace]) := rfl
            rw [e0] at hlen
            simp only [List.length_cons, List.length_append, List.length_singleton] at hlen
            omega
          have e1 : serJson (.obj (g :: fs')) ++ rest =
              lbrace :: ((serMembers (g :: fs') ++ [rbrace]) ++ rest) := rfl
          rw [e1]
          simp only [parseVal]
          rw [skipWs_cons _ _ (by decide)]
          dsimp only
          rw [show ((lbrace : Char) == '"') = false from by decide]
          simp only [Bool.false_eq_true, if_false]
          rw [if_pos (by decide : ((lbrace : Char) == lbrace) = true)]
          have e2 : (serMembers (g :: fs') ++ [rbrace]) ++ rest =
              serMembers (g :: fs') ++ rbrace :: rest := by
            rw [List.append_assoc]
            rfl
          rw [e2, hM, List.cons_append]
          rw [skipWs_cons _ _ (by decide)]
          dsimp only
          rw [show (('"' : Char) == rbrace) = false from by decide]
          simp only [Bool.false_eq_true, if_false]
          rw [← List.cons_append, ← hM]
          exact ihm g fs' [] rest hlen2
      | arr es =>
        cases es with
        | nil => rfl
        | cons e es' =>
          have hlen2 : (serElems (e :: es')).length + 2 ≤ f := by
            have e0 : serJson (.arr (e :: es')) =
                '[' :: (serElems (e :: es') ++ [']']) := rfl
            rw [e0] at hlen
            simp only [List.length_cons, List.length_append, List.length_singleton] at hlen
            omega
          have e1 : serJson (.arr (e :: es')) ++ rest =
              '[' :: ((serElems (e :: es') ++ [']']) ++ rest) := rfl
          rw [e1]
          simp only [parseVal]
          rw [skipWs_cons _ _ (by decide)]
          dsimp only
          rw [show (('[' : Char) == '"') = false from by decide]
          simp only [Bool.false_eq_true, if_false]
          rw [show (('[' : Char) == lbrace) = false from by decide]
          simp only [Bool.false_eq_true, if_false]
          rw [if_pos (by decide : (('[' : Char) == '[') = true)]
          have e2 : (serElems (e :: es') ++ [']']) ++ rest =
              serElems (e :: es') ++ ']' :: rest := by
            rw [List.append_assoc]
            rfl
          rw [e2]
          obtain ⟨T, hT2⟩ : ∃ T, serElems (e :: es') = serJson e ++ T := by
            cases es' with
            | nil => exact ⟨[], by rw [List.append_nil]; rfl⟩
            | cons g2 gs2 => exact ⟨',' :: serElems (g2 :: gs2), rfl⟩
          obtain ⟨h, t, hht, hws2, hbk2⟩ := serJson_head e
          have e3 : serElems (e :: es') ++ ']' :: rest = h :: (t ++ (T ++ ']' :: rest)) := by
            rw [hT2, hht]
            simp [List.append_assoc]
          rw [e3]
          rw [skipWs_cons _ _ hws2]
          dsimp only
          rw [hbk2]
          simp only [Bool.false_eq_true, if_false]
          rw [← e3]
          exact ihe e es' [] rest hlen2
  · intro g fs acc rest hlen
    cases fuel with
    | zero => exact absurd hlen (by omega)
    | succ f =>
      obtain ⟨ihv, ihm, ihe⟩ := ih f (Nat.lt_succ_self f)
      cases fs with
      | nil =>
        have hv : parseVal f (serJson g.2 ++ rbrace :: rest) = some (g.2, rbrace :: rest) := by
          apply ihv
          · have e0 : serMembers [g] = serStr g.1 ++ ':' :: serJson g.2 := rfl
            rw [e0, List.length_append, List.length_cons, serStr_length g.1] at hlen
            omega
          · intro c hc
            simp only [List.head?_cons, Option.some.injEq] at hc
            subst hc
            decide
        have e1 : serMembers [g] ++ rbrace :: rest =
            '"' :: (escapeChars g.1.data ++ '"' :: (':' :: (serJson g.2 ++ rbrace :: rest))) := by
          show (serStr g.1 ++ ':' :: serJson g.2) ++ rbrace :: rest = _
          rw [serStr]
          simp [List.append_assoc]
        rw [e1]
        simp only [parseMembers]
        rw [skipWs_cons _ _ (by decide)]
        dsimp only
        rw [if_pos (by decide : (('"' : Char) == '"') = true)]
        rw [parseStrBody_escape]
        dsimp only
        rw [skipWs_cons _ _ (by decide)]
        show (match parseVal f (serJson g.2 ++ rbrace :: rest) with
          | none => none
          | some (v, s4) =>
            match skipWs s4 with
            | ',' :: s6 => parseMembers f s6 (acc ++ [(String.mk g.1.data, v)])
            | c2 :: s7 =>
              if c2 == rbrace then some (Json.obj (acc ++ [(String.mk g.1.data, v)]), s7)
              else none
            | [] => none) = some (Json.obj (acc ++ [g]), rest)
        rw [hv]
        rfl
      | cons h hs =>
        have hv : parseVal f (serJson g.2 ++ ',' :: (serMembers (h :: hs) ++ rbrace :: rest)) =
            some (g.2, ',' :: (serMembers (h :: hs) ++ rbrace :: rest)) := by
          apply ihv
          · have e0 : serMembers (g :: h :: hs) =
                (serStr g.1 ++ ':' :: serJson g.2) ++ ',' :: serMembers (h :: hs) := rfl
            rw [e0] at hlen
            simp only [List.length_append, List.length_cons, serStr_length g.1] at hlen
            omega
          · intro c hc
            simp only [List.head?_cons, Option.some.injEq] at hc
            subst hc
            decide
        have hm : parseMembers f (serMembers (h :: hs) ++ rbrace :: rest) (acc ++ [g]) =
            some (.obj ((acc ++ [g]) ++ h :: hs), rest) := by
          apply ihm
          have e0 : serMembers (g :: h :: hs) =
              (serStr g.1 ++ ':' :: serJson g.2) ++ ',' :: serMembers (h :: hs) := rfl
          rw [e0] at hlen
          simp only [List.length_append, List.length_cons, serStr_length g.1] at hlen
          have := serJson_length_pos g.2
          omega
        have e1 : serMembers (g :: h :: hs) ++ rbrace :: rest =
            '"' :: (escapeChars g.1.data ++ '"' ::
              (':' :: (serJson g.2 ++ ',' :: (serMembers (h :: hs) ++ rbrace :: rest)))) := by
          show ((serStr g.1 ++ ':' :: serJson g.2) ++ ',' :: serMembers (h :: hs)) ++
              rbrace :: rest = _
          rw [serStr]
          simp [List.append_assoc]
        rw [e1]
        simp only [parseMembers]
        rw [skipWs_cons _ _ (by decide)]
        dsimp only
        rw [if_pos (by decide : (('"' : Char) == '"') = true)]
        rw [parseStrBody_escape]
        dsimp only
        rw [skipWs_cons _ _ (by decide)]
        show (match parseVal f (serJson g.2 ++ ',' :: (serMembers (h :: hs) ++ rbrace :: rest)) with
          | none => none
          | some (v, s4) =>
            match skipWs s4 with
            | ',' :: s6 => parseMembers f s6 (acc ++ [(String.mk g.1.data, v)])
            | c2 :: s7 =>
              if c2 == rbrace then some (Json.obj (acc ++ [(String.mk g.1.data, v)]), s7)
              else none
            | [] => none) = some (Json.obj (acc ++ g :: h :: hs), rest)
        rw [hv]
        show parseMembers f (serMembers (h :: hs) ++ rbrace :: rest) (acc ++ [g]) =
          some (Json.obj (acc ++ g :: h :: hs), rest)
        rw [hm, List.append_assoc]
        rfl
  · intro e es acc rest hlen
    cases fuel with
    | zero => exact absurd hlen (by omega)
    | succ f =>
      obtain ⟨ihv, ihm, ihe⟩ := ih f (Nat.lt_succ_self f)
      cases es with
      | nil =>
        have hv : parseVal f (serJson e ++ ']' :: rest) = some (e, ']' :: rest) := by
          apply ihv
          · have e0 : serElems [e] = serJson e := rfl
            rw [e0] at hlen
            omega
          · intro c hc
            simp only [List.head?_cons, Option.some.injEq] at hc
            subst hc
            decide
        have e1 : serElems [e] ++ ']' :: rest = serJson e ++ ']' :: rest := rfl
        rw [e1]
        simp only [parseElems]
        rw [hv]
        rfl
      | cons e2 es2 =>
        have hv : parseVal f (serJson e ++ ',' :: (serElems (e2 :: es2) ++ ']' :: rest)) =
            some (e, ',' :: (serElems (e2 :: es2) ++ ']' :: rest)) := by
          apply ihv
          · have e0 : serElems (e :: e2 :: es2) = serJson e ++ ',' :: serElems (e2 :: es2) := rfl
            rw [e0] at hlen
            simp only [List.length_append, List.length_cons] at hlen
            omega
          · intro c hc
            simp only [List.head?_cons, Option.some.injEq] at hc
            subst hc
            decide
        have he : parseElems f (serElems (e2 :: es2) ++ ']' :: rest) (acc ++ [e]) =
            some (.arr ((acc ++ [e]) ++ e2 :: es2), rest) := by
          apply ihe
          have e0 : serElems (e :: e2 :: es2) = serJson e ++ ',' :: serElems (e2 :: es2) := rfl
          rw [e0] at hlen
          simp only [List.length_append, List.length_cons] at hlen
          have := serJson_length_pos e
          omega
        have e1 : serElems (e :: e2 :: es2) ++ ']' :: rest =
            serJson e ++ ',' :: (serElems (e2 :: es2) ++ ']' :: rest) := by
          show (serJson e ++ ',' :: serElems (e2 :: es2)) ++ ']' :: rest = _
          simp [List.append_assoc]
        rw [e1]
        simp only [parseElems]
        rw [hv]
        show parseElems f (serElems (e2 :: es2) ++ ']' :: rest) (acc ++ [e]) =
          some (Json.arr (acc ++ e :: e2 :: es2), rest)
        rw [he, List.append_assoc]
        rfl

end Picoclaw.Json

namespace Picoclaw.Json

open Picoclaw

/-- Full-input parsing inverts serialization. -/
theorem jsonParseFull_serJson (v : Json) : jsonParseFull (serJson v) = some v := by
  rw [jsonParseFull]
  have h := (parse_ser_round ((serJson v).length + 1)).1 v []
    (by omega) (by intro c hc; simp at hc)
  rw [List.append_nil] at h
  rw [h]
  rfl

end Picoclaw.Json

namespace Picoclaw.Provider

open Picoclaw Picoclaw.Json

/-- Decoding the rendered payload recovers the call's name and argument
object. -/
theorem unmarshalCall_payload (c : PlainCall) :
    unmarshalCall (serJson (callPayload c)) = some (c.name, some (.obj c.arguments)) := by
  simp only [unmarshalCall]
  rw [jsonParseFull_serJson]
  rfl

/-- `ScanNeutral` is closed under concatenation. -/
theorem ScanNeutral.append {xs ys : List Char} (hx : ScanNeutral xs) (hy : ScanNeutral ys) :
    ScanNeutral (xs ++ ys) := by
  intro zs d acc hd
  rw [List.append_assoc, hx (ys ++ zs) d acc hd, hy zs d (acc ++ xs) hd, List.append_assoc]

/-- The empty sequence is neutral. -/
theorem scanNeutral_nil : ScanNeutral [] := by
  intro ys d acc hd
  rw [List.nil_append, List.append_nil]

/-- A single character other than a quote or brace is neutral. -/
theorem scanNeutral_char (c : Char) (h1 : (c == '"') = false) (h2 : (c == lbrace) = false)
    (h3 : (c == rbrace) = false) : ScanNeutral [c] := by
  intro ys d acc hd
  show scanBalanced (c :: ys) d false false acc = _
  rw [scanBalanced]
  simp only [Bool.false_eq_true, if_false, Bool.and_false, h1, h2, h3]

/-- Scanning escaped string content inside a string consumes it. -/
theorem scan_str_content : ∀ (cs ys : List Char) (d : Int) (acc : List Char),
    scanBalanced (escapeChars cs ++ ys) d true false acc =
      scanBalanced ys d true false (acc ++ escapeChars cs) := by
  intro cs
  induction cs with
  | nil => intro ys d acc; simp [escapeChars]
  | cons c cs ih =>
    intro ys d acc
    by_cases hc : c == '"' ∨ c == '\\'
    · have he : escapeChars (c :: cs) = '\\' :: c :: escapeChars cs := by
        rw [escapeChars, if_pos hc]
      rw [he]
      show scanBalanced ('\\' :: (c :: (escapeChars cs ++ ys))) d true false acc = _
      rw [scanBalanced]
      simp only [Bool.false_eq_true, if_false]
      rw [if_pos (by simp : (('\\' : Char) == '\\' && true) = true)]
      rw [scanBalanced]
      rw [if_pos rfl]
      rw [ih]
      simp [List.append_assoc]
    · have he : escapeChars (c :: cs) = c :: escapeChars cs := by
        rw [escapeChars, if_neg hc]
      push_neg at hc
      have hq : (c == '"') = false := by
        cases h : c == '"' with
        | false => rfl
        | true => exact absurd h hc.1
      have hb : (c == '\\') = false := by
        cases h : c == '\\' with
        | false => rfl
        | true => exact absurd h hc.2
      rw [he]
      show scanBalanced (c :: (escapeChars cs ++ ys)) d true false acc = _
      rw [scanBalanced]
      simp only [Bool.false_eq_true, if_false, hb, Bool.false_and, hq, if_true]
      rw [ih]
      simp [List.append_assoc]

/-- A serialized string literal is neutral. -/
theorem scanNeutral_serStr (s : String) : ScanNeutral (serStr s) := by
  intro ys d acc hd
  have e1 : serStr s ++ ys = '"' :: (escapeChars s.data ++ '"' :: ys) := by
    show ('"' :: (escapeChars s.data ++ ['"'])) ++ ys = _
    rw [List.cons_append, List.append_assoc]
    rfl
  rw [e1]
  rw [scanBalanced]
  simp only [Bool.false_eq_true, if_false, Bool.and_false]
  rw [if_pos (by decide : (('"' : Char) == '"') = true)]
  simp only [Bool.not_false]
  rw [scan_str_content]
  rw [scanBalanced]
  rw [if_neg (by decide : ¬((('"' : Char) == '\\') && true) = true)]
  rw [if_pos (by decide : (('"' : Char) == '"') = true)]
  simp only [Bool.not_true]
  simp [serStr, List.append_assoc]

end Picoclaw.Provider

namespace Picoclaw.Provider

open Picoclaw Picoclaw.Json

/-- A sequence of quote-free, brace-free characters is neutral. -/
theorem scanNeutral_of_chars : ∀ (xs : List Char),
    (∀ c ∈ xs, (c == '"') = false ∧ (c == lbrace) = false ∧ (c == rbrace) = false) →
    ScanNeutral xs := by
  intro xs
  induction xs with
  | nil => exact fun _ => scanNeutral_nil
  | cons c cs ih =>
    intro h
    have h1 := h c (List.mem_cons_self _ _)
    exact ScanNeutral.append (scanNeutral_char c h1.1 h1.2.1 h1.2.2)
      (ih (fun x hx => h x (List.mem_cons_of_mem _ hx)))

/-- Serialized numbers are neutral. -/
theorem serNum_scanNeutral (m : Int) (k : Nat) : ScanNeutral (serNum m k) := by
  apply scanNeutral_of_chars
  intro c hc
  rw [serNum_eq] at hc
  have hdig : ∀ x ∈ padDigits (natChars m.natAbs) k, x.isDigit = true :=
    padDigits_digits _ _ (natCharsF_digits _ _)
  have hcd : c.isDigit = true ∨ c = '-' ∨ c = '.' := by
    rcases List.mem_append.mp hc with h1 | h1
    · by_cases hm : m < 0
      · rw [if_pos hm] at h1
        exact Or.inr (Or.inl (List.mem_singleton.mp h1))
      · rw [if_neg hm] at h1
        cases h1
    · by_cases hk : k = 0
      · rw [if_pos hk] at h1
        exact Or.inl (hdig c h1)
      · rw [if_neg hk] at h1
        rcases List.mem_append.mp h1 with h2 | h2
        · exact Or.inl (hdig c (List.take_subset _ _ h2))
        · rcases List.mem_cons.mp h2 with rfl | h3
          · exact Or.inr (Or.inr rfl)
          · exact Or.inl (hdig c (List.drop_subset _ _ h3))
  rcases hcd with hd | rfl | rfl
  · exact ⟨digit_beq_right _ _ (by decide) hd, digit_beq_right _ _ (by decide) hd,
      digit_beq_right _ _ (by decide) hd⟩
  · exact ⟨by decide, by decide, by decide⟩
  · exact ⟨by decide, by decide, by decide⟩

/-- An element's serialization is no longer than the element list's. -/
theorem serElems_mem_length : ∀ (es : List Json) (e : Json), e ∈ es →
    (serJson e).length ≤ (serElems es).length := by
  intro es
  induction es with
  | nil => intro e he; cases he
  | cons x xs ih =>
    intro e he
    cases xs with
    | nil =>
      rcases List.mem_singleton.mp he with rfl
      exact le_refl _
    | cons y ys =>
      have e0 : serElems (x :: y :: ys) = serJson x ++ ',' :: serElems (y :: ys) := rfl
      rcases List.mem_cons.mp he with rfl | h2
      · rw [e0, List.length_append]
        omega
      · have := ih e h2
        rw [e0, List.length_append, List.length_cons]
        omega

/-- A member value's serialization is no longer than the member list's. -/
theorem serMembers_mem_length : ∀ (fs : List (String × Json)) (f : String × Json), f ∈ fs →
    (serJson f.2).length ≤ (serMembers fs).length := by
  intro fs
  induction fs with
  | nil => intro f hf; cases hf
  | cons x xs ih =>
    intro f hf
    cases xs with
    | nil =>
      rcases List.mem_singleton.mp hf with rfl
      have e0 : serMembers [f] = serStr f.1 ++ ':' :: serJson f.2 := rfl
      rw [e0, List.length_append, List.length_cons]
      omega
    | cons y ys =>
      have e0 : serMembers (x :: y :: ys) =
          (serStr x.1 ++ ':' :: serJson x.2) ++ ',' :: serMembers (y :: ys) := rfl
      rcases List.mem_cons.mp hf with rfl | h2
      · rw [e0, List.length_append, List.length_append, List.length_cons]
        omega
      · have := ih f h2
        rw [e0, List.length_append, List.length_cons]
        omega

/-- Serialized element lists are neutral when their elements are. -/
theorem scanNeutral_serElems : ∀ (es : List Json),
    (∀ e ∈ es, ScanNeutral (serJson e)) → ScanNeutral (serElems es) := by
  intro es
  induction es with
  | nil => exact fun _ => scanNeutral_nil
  | cons e es ih =>
    intro h
    cases es with
    | nil => exact h e (List.mem_cons_self _ _)
    | cons e2 es2 =>
      exact ScanNeutral.append (h e (List.mem_cons_self _ _))
        (ScanNeutral.append (scanNeutral_char ',' (by decide) (by decide) (by decide))
          (ih (fun x hx => h x (List.mem_cons_of_mem _ hx))))

/-- Serialized member lists are neutral when their values are. -/
theorem scanNeutral_serMembers : ∀ (fs : List (String × Json)),
    (∀ f ∈ fs, ScanNeutral (serJson f.2)) → ScanNeutral (serMembers fs) := by
  intro fs
  induction fs with
  | nil => exact fun _ => scanNeutral_nil
  | cons f fs ih =>
    intro h
    cases fs with
    | nil =>
      exact ScanNeutral.append (scanNeutral_serStr f.1)
        (ScanNeutral.append (scanNeutral_char ':' (by decide) (by decide) (by decide))
          (h f (List.mem_cons_self _ _)))
    | cons g gs =>
      exact ScanNeutral.append
        (ScanNeutral.append (scanNeutral_serStr f.1)
          (ScanNeutral.append (scanNeutral_char ':' (by decide) (by decide) (by decide))
            (h f (List.mem_cons_self _ _))))
        (ScanNeutral.append (scanNeutral_char ',' (by decide) (by decide) (by decide))
          (ih (fun x hx => h x (List.mem_cons_of_mem _ hx))))

/-- Every serialized value is neutral at positive depth. -/
theorem serJson_scanNeutral_aux : ∀ n : Nat, ∀ v : Json,
    (serJson v).length ≤ n → ScanNeutral (serJson v) := by
  intro n
  induction n using Nat.strong_induction_on with
  | _ n ih =>
  intro v hlen
  cases v with
  | null =>
    apply scanNeutral_of_chars
    decide
  | bool b =>
    cases b with
    | true =>
      apply scanNeutral_of_chars
      decide
    | false =>
      apply scanNeutral_of_chars
      decide
  | num m k => exact serNum_scanNeutral m k
  | str s => exact scanNeutral_serStr s
  | arr es =>
    have h2 : (serJson (.arr es)).length = (serElems es).length + 2 := by
      show (('[' :: (serElems es ++ [']'])).length) = _
      simp
    have hel : ∀ e ∈ es, ScanNeutral (serJson e) := by
      intro e he
      have h1 : (serJson e).length ≤ (serElems es).length := serElems_mem_length es e he
      exact ih (serJson e).length (by omega) e (le_refl _)
    exact ScanNeutral.append (scanNeutral_char '[' (by decide) (by decide) (by decide))
      (ScanNeutral.append (scanNeutral_serElems es hel)
        (scanNeutral_char ']' (by decide) (by decide) (by decide)))
  | obj fs =>
    have h2 : (serJson (.obj fs)).length = (serMembers fs).length + 2 := by
      show ((lbrace :: (serMembers fs ++ [rbrace])).length) = _
      simp
    have hmem : ∀ f ∈ fs, ScanNeutral (serJson f.2) := by
      intro f hf
      have h1 := serMembers_mem_length fs f hf
      exact ih (serJson f.2).length (by omega) f.2 (le_refl _)
    have hms := scanNeutral_serMembers fs hmem
    intro ys d acc hd
    have e1 : serJson (.obj fs) ++ ys = lbrace :: (serMembers fs ++ (rbrace :: ys)) := by
      show (lbrace :: (serMembers fs ++ [rbrace])) ++ ys = _
      rw [List.cons_append, List.append_assoc]
      rfl
    rw [e1]
    rw [scanBalanced]
    simp only [Bool.false_eq_true, if_false, Bool.and_false]
    rw [show ((lbrace : Char) == '"') = false from by decide]
    simp only [Bool.false_eq_true, if_false]
    rw [if_pos (by decide : ((lbrace : Char) == lbrace) = true)]
    rw [hms (rbrace :: ys) (d + 1) (acc ++ [lbrace]) (by omega)]
    rw [scanBalanced]
    simp only [Bool.false_eq_true, if_false, Bool.and_false]
    rw [show ((rbrace : Char) == '"') = false from by decide]
    simp only [Bool.false_eq_true, if_false]
    rw [show ((rbrace : Char) == lbrace) = false from by decide]
    simp only [Bool.false_eq_true, if_false]
    rw [if_pos (by decide : ((rbrace : Char) == rbrace) = true)]
    rw [if_neg (by omega : ¬(d + 1 - 1 = 0))]
    have e2 : d + 1 - 1 = d := by ring
    rw [e2]
    show scanBalanced ys d false false (((acc ++ [lbrace]) ++ serMembers fs) ++ [rbrace]) =
      scanBalanced ys d false false (acc ++ (lbrace :: (serMembers fs ++ [rbrace])))
    simp [List.append_assoc]

/-- Every serialized value is neutral at positive depth. -/
theorem serJson_scanNeutral (v : Json) : ScanNeutral (serJson v) :=
  serJson_scanNeutral_aux (serJson v).length v (le_refl _)

end Picoclaw.Provider

namespace Picoclaw.Provider

open Picoclaw Picoclaw.Json

/-- The brace extractor returns exactly the serialized object it starts
with. -/
theorem extractBalancedJSON_ser (fs : List (String × Json)) (ys : List Char) :
    extractBalancedJSON (serJson (.obj fs) ++ ys) = serJson (.obj fs) := by
  have hms : ScanNeutral (serMembers fs) := scanNeutral_serMembers fs
    (fun f _ => serJson_scanNeutral f.2)
  have e1 : serJson (.obj fs) ++ ys = lbrace :: (serMembers fs ++ (rbrace :: ys)) := by
    show (lbrace :: (serMembers fs ++ [rbrace])) ++ ys = _
    rw [List.cons_append, List.append_assoc]
    rfl
  rw [e1]
  simp only [extractBalancedJSON]
  simp only [List.dropWhile_cons]
  rw [show ((lbrace : Char) != lbrace) = false from by decide]
  simp only [Bool.false_eq_true, if_false]
  rw [scanBalanced]
  simp only [Bool.false_eq_true, if_false, Bool.and_false]
  rw [show ((lbrace : Char) == '"') = false from by decide]
  simp only [Bool.false_eq_true, if_false]
  rw [if_pos (by decide : ((lbrace : Char) == lbrace) = true)]
  rw [hms (rbrace :: ys) (0 + 1) ([] ++ [lbrace]) (by omega)]
  rw [scanBalanced]
  simp only [Bool.false_eq_true, if_false, Bool.and_false]
  rw [show ((rbrace : Char) == '"') = false from by decide]
  simp only [Bool.false_eq_true, if_false]
  rw [show ((rbrace : Char) == lbrace) = false from by decide]
  simp only [Bool.false_eq_true, if_false]
  rw [if_pos (by decide : ((rbrace : Char) == rbrace) = true)]
  rw [if_pos (by omega : (0 : Int) + 1 - 1 = 0)]
  dsimp only
  show ((([] : List Char) ++ [lbrace]) ++ serMembers fs) ++ [rbrace] =
    lbrace :: (serMembers fs ++ [rbrace])
  simp

/-- The extractor specialized to a rendered payload. -/
theorem extractBalancedJSON_payload (c : PlainCall) (ys : List Char) :
    extractBalancedJSON (serJson (callPayload c) ++ ys) = serJson (callPayload c) :=
  extractBalancedJSON_ser [("name", .str c.name), ("arguments", .obj c.arguments)] ys

/-- The tag regex matches exactly the opening tag at a rendered block:
the payload starts with a brace, so the greedy whitespace run is empty. -/
theorem matchTagAt_open (X : List Char) :
    matchTagAt (tagOpenFunc ++ (lbrace :: X)) = some 14 := by
  rw [matchTagAt]
  rw [if_pos (isPrefChars_append_self tagOpenFunc (lbrace :: X))]
  rw [show (14 : Nat) = tagOpenFunc.length from by decide]
  rw [List.drop_left]
  have hw : wsLen (lbrace :: X) = 0 := by
    rw [wsLen]
    rw [List.takeWhile_cons]
    rw [show reWs lbrace = false from by decide]
    simp
  rw [hw]
  decide

/-- A position where no tag is a prefix yields no match. -/
theorem matchTagAt_eq_none (s : List Char) (h : ∀ t ∈ tagList, isPrefChars t s = false) :
    matchTagAt s = none := by
  rw [matchTagAt]
  rw [h tagOpenFunc (by simp [tagList]), h tagOpenTool (by simp [tagList]),
    h tagOpenBracket (by simp [tagList])]
  simp

/-- Tag lengths. -/
theorem tag_facts1 : ∀ t ∈ tagList, 2 ≤ t.length ∧ t.length ≤ 14 := by decide

/-- No tail of a tag is an initial segment of the closing tag. -/
theorem tag_facts2 : ∀ t ∈ tagList, ∀ b < t.length,
    t.drop b ≠ closeTagChars.take (t.length - b) := by decide

/-- No tag starts like the closing tag. -/
theorem tag_facts3 : ∀ t ∈ tagList, t.take 2 ≠ closeTagChars.take 2 := by decide

/-- No tag starts like a strict suffix of the closing tag. -/
theorem tag_facts4 : ∀ t ∈ tagList, ∀ k < 15, 1 ≤ k →
    t.take 1 ≠ (closeTagChars.drop k).take 1 := by decide

/-- Inside a rendered block body (tag-free payload followed by the
closing tag), the tag regex matches at no position. -/
theorem noTagMatch_in_body (body rest : List Char)
    (hclean : ∀ t ∈ tagList, hasSub t body = false) :
    ∀ n, n < body.length + 15 →
      matchTagAt ((body ++ (closeTagChars ++ rest)).drop n) = none := by
  intro n hn
  apply matchTagAt_eq_none
  intro t ht
  by_contra hp
  rw [Bool.not_eq_false] at hp
  obtain ⟨u, hu⟩ := (isPrefChars_iff _ _).1 hp
  have hct : closeTagChars.length = 15 := by decide
  by_cases hb : n < body.length
  · have hdrop : (body ++ (closeTagChars ++ rest)).drop n =
        body.drop n ++ (closeTagChars ++ rest) :=
      drop_append_of_le _ _ _ (by omega)
    rw [hdrop] at hu
    by_cases hlt : t.length ≤ (body.drop n).length
    · have h1 : (body.drop n ++ (closeTagChars ++ rest)).take t.length =
          (body.drop n).take t.length := take_append_of_le _ _ _ hlt
      have h2 : (t ++ u).take t.length = t := List.take_left _ _
      have h3 : t = (body.drop n).take t.length := by
        conv_lhs => rw [← h2, ← hu]
        exact h1
      have h4 : isPrefChars t (body.drop n) = true := by
        rw [isPrefChars_iff]
        refine ⟨(body.drop n).drop t.length, ?_⟩
        conv_lhs => rw [← List.take_append_drop t.length (body.drop n)]
        rw [← h3]
      have h5 := isPrefChars_eq_false_of_not_sub t body (hclean t ht) n
      rw [h4] at h5
      cases h5
    · push_neg at hlt
      have hby : (t ++ u).drop (body.drop n).length =
          t.drop (body.drop n).length ++ u :=
        drop_append_of_le _ _ _ (le_of_lt hlt)
      have hdy : (body.drop n ++ (closeTagChars ++ rest)).drop (body.drop n).length =
          closeTagChars ++ rest := List.drop_left _ _
      have h6 : t.drop (body.drop n).length ++ u = closeTagChars ++ rest := by
        rw [← hby, ← hu, hdy]
      have hlen_td : (t.drop (body.drop n).length).length =
          t.length - (body.drop n).length := List.length_drop _ _
      have h7 : (t.drop (body.drop n).length ++ u).take (t.length - (body.drop n).length) =
          t.drop (body.drop n).length := by
        rw [take_append_of_le _ _ _ (by omega)]
        rw [← hlen_td, List.take_length]
      have h8 : (closeTagChars ++ rest).take (t.length - (body.drop n).length) =
          closeTagChars.take (t.length - (body.drop n).length) := by
        apply take_append_of_le
        have := (tag_facts1 t ht).2
        omega
      have h9 : t.drop (body.drop n).length =
          closeTagChars.take (t.length - (body.drop n).length) := by
        rw [← h7, h6, h8]
      exact (tag_facts2 t ht (body.drop n).length (by omega)) h9
  · push_neg at hb
    have hdrop : (body ++ (closeTagChars ++ rest)).drop n =
        (closeTagChars ++ rest).drop (n - body.length) := by
      rw [List.drop_append_eq_append_drop]
      rw [List.drop_eq_nil_of_le hb]
      rfl
    rw [hdrop] at hu
    have hk : n - body.length < 15 := by omega
    by_cases hk0 : n - body.length = 0
    · rw [hk0, List.drop_zero] at hu
      have h1 : (t ++ u).take 2 = t.take 2 := take_append_of_le _ _ _ (tag_facts1 t ht).1
      have h2 : (closeTagChars ++ rest).take 2 = closeTagChars.take 2 :=
        take_append_of_le _ _ _ (by omega)
      exact (tag_facts3 t ht) (by rw [← h1, ← hu, h2])
    · have hdrop2 : (closeTagChars ++ rest).drop (n - body.length) =
          closeTagChars.drop (n - body.length) ++ rest :=
        drop_append_of_le _ _ _ (by omega)
      rw [hdrop2] at hu
      have h1 : (t ++ u).take 1 = t.take 1 := by
        apply take_append_of_le
        have := (tag_facts1 t ht).1
        omega
      have h2 : (closeTagChars.drop (n - body.length) ++ rest).take 1 =
          (closeTagChars.drop (n - body.length)).take 1 := by
        apply take_append_of_le
        rw [List.length_drop]
        omega
      exact (tag_facts4 t ht (n - body.length) hk (by omega)) (by rw [← h1, ← hu, h2])

end Picoclaw.Provider

namespace Picoclaw.Provider

open Picoclaw Picoclaw.Json

/-- Scanning past match-free positions drops them, consuming fuel one
character at a time. -/
theorem findTagsF_skip : ∀ (xs ys : List Char) (fuel : Nat),
    xs.length + ys.length ≤ fuel →
    (∀ n, n < xs.length → matchTagAt ((xs ++ ys).drop n) = none) →
    findTagsF fuel (xs ++ ys) = findTagsF (fuel - xs.length) ys := by
  intro xs
  induction xs with
  | nil =>
    intro ys fuel hf h
    simp
  | cons x xs ih =>
    intro ys fuel hf h
    cases fuel with
    | zero =>
      simp only [List.length_cons] at hf
      omega
    | succ f =>
      have h0 := h 0 (by simp)
      rw [List.drop_zero, List.cons_append] at h0
      show findTagsF (f + 1) (x :: (xs ++ ys)) = _
      rw [findTagsF]
      rw [h0]
      dsimp only
      rw [ih ys f (by simp only [List.length_cons] at hf; omega) (fun n hn => by
        have h1 := h (n + 1) (by simp only [List.length_cons]; omega)
        rw [List.cons_append, List.drop_succ_cons] at h1
        exact h1)]
      have e : f + 1 - (x :: xs).length = f - xs.length := by
        simp only [List.length_cons]
        omega
      rw [e]

/-- `findTagsF` on rendered calls returns exactly the post-tag suffixes,
one per call. -/
theorem findTagsF_render : ∀ (calls : List PlainCall) (fuel : Nat),
    (∀ c ∈ calls, ∀ t ∈ tagList, hasSub t (serJson (callPayload c)) = false) →
    (renderCalls calls).length ≤ fuel →
    findTagsF fuel (renderCalls calls) = tagSuffixes calls := by
  intro calls
  induction calls with
  | nil =>
    intro fuel h hf
    cases fuel with
    | zero => rfl
    | succ f => rfl
  | cons c cs ih =>
    intro fuel hcl hf
    have e1 : renderCalls (c :: cs) =
        tagOpenFunc ++ (serJson (callPayload c) ++ (closeTagChars ++ renderCalls cs)) := by
      show renderCall c ++ renderCalls cs = _
      rw [renderCall]
      simp [List.append_assoc]
    have hlen : (renderCalls (c :: cs)).length =
        14 + ((serJson (callPayload c)).length + (15 + (renderCalls cs).length)) := by
      rw [e1]
      simp only [List.length_append]
      rw [show tagOpenFunc.length = 14 from by decide,
        show closeTagChars.length = 15 from by decide]
    rw [hlen] at hf
    cases fuel with
    | zero => omega
    | succ f =>
      rw [e1]
      have e2 : serJson (callPayload c) ++ (closeTagChars ++ renderCalls cs) =
          lbrace :: ((serMembers [("name", Json.str c.name), ("arguments", Json.obj c.arguments)] ++
            [rbrace]) ++ (closeTagChars ++ renderCalls cs)) := rfl
      have e3 : tagOpenFunc ++ (serJson (callPayload c) ++ (closeTagChars ++ renderCalls cs)) =
          '<' :: ("functioncall>".data ++
            (serJson (callPayload c) ++ (closeTagChars ++ renderCalls cs))) := rfl
      rw [e3]
      rw [findTagsF]
      rw [← e3]
      rw [e2, matchTagAt_open]
      dsimp only
      rw [← e2]
      rw [show (14 : Nat) = tagOpenFunc.length from by decide]
      rw [List.drop_left]
      rw [tagSuffixes]
      have e4 : serJson (callPayload c) ++ (closeTagChars ++ renderCalls cs) =
          (serJson (callPayload c) ++ closeTagChars) ++ renderCalls cs := by
        rw [List.append_assoc]
      have hP : (serJson (callPayload c) ++ closeTagChars).length =
          (serJson (callPayload c)).length + 15 := by
        rw [List.length_append, show closeTagChars.length = 15 from by decide]
      rw [e4]
      rw [findTagsF_skip (serJson (callPayload c) ++ closeTagChars) (renderCalls cs) f
        (by rw [hP]; omega)
        (fun n hn => by
          have h5 := noTagMatch_in_body (serJson (callPayload c)) (renderCalls cs)
            (hcl c (List.mem_cons_self _ _)) n (by rw [hP] at hn; omega)
          rw [← List.append_assoc] at h5
          exact h5)]
      rw [ih (f - (serJson (callPayload c) ++ closeTagChars).length)
        (fun d hd t ht => hcl d (List.mem_cons_of_mem _ hd) t ht)
        (by rw [hP]; omega)]

/-- `findTags` on rendered calls returns the post-tag suffixes. -/
theorem findTags_render (calls : List PlainCall)
    (hcl : ∀ c ∈ calls, ∀ t ∈ tagList, hasSub t (serJson (callPayload c)) = false) :
    findTags (renderCalls calls) = tagSuffixes calls :=
  findTagsF_render calls (renderCalls calls).length hcl (le_refl _)

end Picoclaw.Provider

namespace Picoclaw.Provider

open Picoclaw Picoclaw.Json

/-- The extraction fold over the rendered suffixes appends one
synthesized call per rendered call, numbering IDs from the accumulator
length. -/
theorem extract_fold : ∀ (calls : List PlainCall) (acc : List ToolCall),
    (∀ c ∈ calls, c.name ≠ "") →
    (tagSuffixes calls).foldl
      (fun acc remaining =>
        let jsonStr := extractBalancedJSON remaining
        if jsonStr = [] then acc
        else
          match unmarshalCall jsonStr with
          | none => acc
          | some (name, args) =>
            if name = "" then acc
            else
              acc ++ [{ id := "textcall_" ++ Nat.repr acc.length, name := name,
                        arguments := argumentsOf args }]) acc =
      acc ++ expectedCalls acc.length calls := by
  intro calls
  induction calls with
  | nil =>
    intro acc h
    show acc = acc ++ expectedCalls acc.length []
    rw [expectedCalls, List.append_nil]
  | cons c cs ih =>
    intro acc hname
    rw [tagSuffixes, List.foldl_cons]
    have hser_ne : serJson (callPayload c) ≠ [] := by
      have h1 := serJson_length_pos (callPayload c)
      intro h0
      rw [h0] at h1
      simp at h1
    dsimp only
    rw [extractBalancedJSON_payload]
    rw [if_neg hser_ne]
    rw [unmarshalCall_payload]
    dsimp only
    rw [if_neg (hname c (List.mem_cons_self _ _))]
    have hstep := ih (acc ++ [(⟨"textcall_" ++ Nat.repr acc.length, c.name,
        argumentsOf (some (.obj c.arguments))⟩ : ToolCall)])
      (fun d hd => hname d (List.mem_cons_of_mem _ hd))
    rw [hstep]
    rw [List.length_append, List.length_singleton]
    rw [expectedCalls]
    rw [List.append_assoc]
    rfl

/-- Text recovery on rendered calls synthesizes exactly one call per
rendered call, in order, with IDs textcall_0, textcall_1, ... -/
theorem extractToolCallsFromText_render (calls : List PlainCall)
    (hname : ∀ c ∈ calls, c.name ≠ "")
    (hcl : ∀ c ∈ calls, ∀ t ∈ tagList, hasSub t (serJson (callPayload c)) = false) :
    extractToolCallsFromText (renderCalls calls) = expectedCalls 0 calls := by
  simp only [extractToolCallsFromText]
  rw [findTags_render calls hcl]
  exact extract_fold calls [] hname

end Picoclaw.Provider

namespace Picoclaw.Provider

open Picoclaw Picoclaw.Json

/-- The synthesized calls carry exactly the original names and argument
objects. -/
theorem expectedCalls_map_payload : ∀ (k : Nat) (calls : List PlainCall),
    (expectedCalls k calls).map (fun tc => (tc.name, tc.arguments)) =
      calls.map (fun c => (c.name, c.arguments)) := by
  intro k calls
  induction calls generalizing k with
  | nil => rfl
  | cons c cs ih =>
    rw [expectedCalls, List.map_cons, List.map_cons, ih]

/-- The synthesized call IDs count up from `k`. -/
theorem expectedCalls_map_id : ∀ (k : Nat) (calls : List PlainCall),
    (expectedCalls k calls).map (fun tc => tc.id) =
      (List.range calls.length).map (fun i => "textcall_" ++ Nat.repr (k + i)) := by
  intro k calls
  induction calls generalizing k with
  | nil => rfl
  | cons c cs ih =>
    rw [expectedCalls, List.map_cons, ih]
    rw [List.length_cons, List.range_succ_eq_map]
    rw [List.map_cons, List.map_map]
    have h0 : k + 0 = k := by omega
    rw [h0]
    congr 1
    apply List.map_congr_left
    intro a _
    show "textcall_" ++ Nat.repr (k + 1 + a) = "textcall_" ++ Nat.repr (k + (a + 1))
    rw [show k + 1 + a = k + (a + 1) from by omega]

end Picoclaw.Provider

namespace Picoclaw.Provider

open Picoclaw Picoclaw.Json

/-- C6 (amended): for tool calls with non-empty names whose rendered
JSON payloads contain none of the opening tags as a substring, applying
the provider's text recovery to the rendered text yields exactly one
synthesized call per rendered call, in order, carrying the original
name and argument object and the generated IDs textcall_0,
textcall_1, ...; and when at least one call is rendered, the recovery
step blanks the content and sets the finish reason to tool_calls. -/
theorem recover_render_roundtrip (calls : List PlainCall) (finishReason : String)
    (hname : ∀ c ∈ calls, c.name ≠ "")
    (hclean : ∀ c ∈ calls, ∀ t ∈ tagList, hasSub t (serJson (callPayload c)) = false) :
    extractToolCallsFromText (renderCalls calls) = expectedCalls 0 calls ∧
    (expectedCalls 0 calls).map (fun tc => (tc.name, tc.arguments)) =
      calls.map (fun c => (c.name, c.arguments)) ∧
    (expectedCalls 0 calls).map (fun tc => tc.id) =
      (List.range calls.length).map (fun i => "textcall_" ++ Nat.repr i) ∧
    (calls ≠ [] →
      applyTextRecovery (String.mk (renderCalls calls)) finishReason [] =
        ("", "tool_calls", expectedCalls 0 calls)) := by
  refine ⟨extractToolCallsFromText_render calls hname hclean,
    expectedCalls_map_payload 0 calls, ?_, ?_⟩
  · rw [expectedCalls_map_id 0 calls]
    apply List.map_congr_left
    intro a _
    rw [show 0 + a = a from by omega]
  · intro hne
    obtain ⟨c0, cs0, rfl⟩ := List.exists_cons_of_ne_nil hne
    have hcne : String.mk (renderCalls (c0 :: cs0)) ≠ "" := by
      intro hcontr
      have h2 := congrArg String.data hcontr
      have h3 : renderCalls (c0 :: cs0) = [] := h2
      have h4 : renderCalls (c0 :: cs0) =
          tagOpenFunc ++ (serJson (callPayload c0) ++ (closeTagChars ++ renderCalls cs0)) := by
        show renderCall c0 ++ renderCalls cs0 = _
        rw [renderCall]
        simp [List.append_assoc]
      rw [h4, List.append_eq_nil] at h3
      exact absurd h3.1 (by decide)
    rw [applyTextRecovery]
    rw [if_pos ⟨rfl, hcne⟩]
    dsimp only
    rw [extractToolCallsFromText_render (c0 :: cs0) hname hclean]
    rw [if_pos (by rw [expectedCalls]; simp : (expectedCalls 0 (c0 :: cs0)).length > 0)]

end Picoclaw.Provider

namespace Picoclaw.Provider

open Picoclaw Picoclaw.Json

/-- Counterexample to C6 as stated: the tool call `cevil` has
JSON-serializable object arguments, yet rendering it and applying the
text recovery yields two tool calls instead of one, because the brace
extraction runs again from the tag text embedded in a JSON string value
of the payload. -/
theorem recover_render_counterexample :
    [cevil].length = 1 ∧
    (extractToolCallsFromText (renderCalls [cevil])).length = 2 ∧
    (extractToolCallsFromText (renderCalls [cevil])).map (fun tc => tc.name) = ["f", "evil"] := by
  refine ⟨rfl, by rfl, by decide⟩

/-- Witness for C6 (amended): a concrete one-call list with a clean
payload round-trips. -/
theorem recover_render_roundtrip_witness :
    (∀ c ∈ [({ name := "f", arguments := [("a", Json.str "x")] } : PlainCall)], c.name ≠ "") ∧
    (∀ c ∈ [({ name := "f", arguments := [("a", Json.str "x")] } : PlainCall)],
      ∀ t ∈ tagList, hasSub t (serJson (callPayload c)) = false) ∧
    extractToolCallsFromText
        (renderCalls [({ name := "f", arguments := [("a", Json.str "x")] } : PlainCall)]) =
      expectedCalls 0 [({ name := "f", arguments := [("a", Json.str "x")] } : PlainCall)] :=
  ⟨by decide, by decide,
    (recover_render_roundtrip [({ name := "f", arguments := [("a", Json.str "x")] } : PlainCall)]
      "stop" (by decide) (by decide)).1⟩

end Picoclaw.Provider
